import Mathlib

/-!
Verification of the LSM-tree persistence core (maksymus/lsmtree).

This file gives a shallow embedding, in Lean 4, of the parts of the Go
source that the specification's claims are about:

* `Entry`, byte-lexicographic key comparison (`bcmp`, Go `bytes.Compare`);
* the k-way compaction `Merge` (sstable package);
* the write-ahead-log record codec (`walWrite` / `walRead`);
* the block codecs (`DataBlock`, `IndexBlock`, `MetaBlock`, `Footer`);
* the SSTable `Build` partitioning and index construction;
* `IndexBlock.Search` (binary search over key ranges);
* the `BloomFilter` (`Add` / `Contains`);
* the `SkipList` (`Get` / `Update`), with pointers modelled as arena
  indices.

Go byte strings are modelled as `List Nat` (each element a byte value);
none of the proved statements depends on elements being < 256, and the
raw-copy codecs are verbatim on the element level, so this loses nothing.
Machine integers that are written to the wire (`u32`, `u64`, `i64`,
`i32`) are modelled as `Nat`/`Int` with explicit reduction `% 2^w` where
the Go code truncates.
-/

/-! ## Bytes and entries -/

abbrev Bytes := List Nat

/-- `Entry` (util/entry.go): a key/value pair with a tombstone flag. -/
structure Entry where
  key : Bytes
  value : Bytes
  tombstone : Bool
deriving DecidableEq, Repr

/-- `Entry.Size` (util/entry.go): `len(Key) + len(Value) + 1`. -/
def Entry.size (e : Entry) : Nat :=
  e.key.length + e.value.length + 1

/-- Go `bytes.Compare`: byte-lexicographic three-way comparison. -/
def bcmp : Bytes → Bytes → Ordering
  | [], [] => .eq
  | [], _ :: _ => .lt
  | _ :: _, [] => .gt
  | a :: as, b :: bs =>
    if a < b then .lt else if b < a then .gt else bcmp as bs

/-- Go `bytes.Equal`, via the comparison. -/
def beq (a b : Bytes) : Bool := bcmp a b = Ordering.eq

theorem bcmp_eq_iff : ∀ a b : Bytes, bcmp a b = .eq ↔ a = b := by
  intro a
  induction a with
  | nil => intro b; cases b <;> simp [bcmp]
  | cons x xs ih =>
    intro b
    cases b with
    | nil => simp [bcmp]
    | cons y ys =>
      simp only [bcmp]
      rcases Nat.lt_trichotomy x y with h | h | h
      · have h2 : x ≠ y := by omega
        simp [h, h2]
      · subst h
        have h2 : ¬ x < x := Nat.lt_irrefl x
        simp [h2, ih]
      · have h2 : x ≠ y := by omega
        have h3 : ¬ x < y := by omega
        simp [h, h3, h2]

theorem bcmp_refl (a : Bytes) : bcmp a a = .eq :=
  (bcmp_eq_iff a a).mpr rfl

theorem bcmp_swap : ∀ a b : Bytes, bcmp b a = (bcmp a b).swap := by
  intro a
  induction a with
  | nil => intro b; cases b <;> simp [bcmp, Ordering.swap]
  | cons x xs ih =>
    intro b
    cases b with
    | nil => simp [bcmp, Ordering.swap]
    | cons y ys =>
      simp only [bcmp]
      rcases Nat.lt_trichotomy x y with h | h | h
      · have h2 : ¬ y < x := by omega
        simp [h, h2, Ordering.swap]
      · subst h
        have h2 : ¬ x < x := Nat.lt_irrefl x
        simp [h2, ih]
      · have h2 : ¬ x < y := by omega
        simp [h, h2, Ordering.swap]

/-- Transitivity of strict byte-lexicographic order. -/
theorem bcmp_lt_trans : ∀ a b c : Bytes,
    bcmp a b = .lt → bcmp b c = .lt → bcmp a c = .lt := by
  intro a
  induction a with
  | nil =>
    intro b c hab hbc
    cases c with
    | nil =>
      cases b with
      | nil => exact hab
      | cons y ys => simp [bcmp] at hbc
    | cons z zs => simp [bcmp]
  | cons x xs ih =>
    intro b c hab hbc
    cases b with
    | nil => simp [bcmp] at hab
    | cons y ys =>
      cases c with
      | nil => simp [bcmp] at hbc
      | cons z zs =>
        simp only [bcmp] at hab hbc ⊢
        rcases Nat.lt_trichotomy x y with h1 | h1 | h1
        · rcases Nat.lt_trichotomy y z with h2 | h2 | h2
          · have h3 : x < z := Nat.lt_trans h1 h2
            simp [h3]
          · subst h2; simp [h1]
          · have h3 : ¬ y < z := by omega
            simp [h3, h2] at hbc
        · subst h1
          have h3 : ¬ x < x := Nat.lt_irrefl x
          simp [h3] at hab
          rcases Nat.lt_trichotomy x z with h2 | h2 | h2
          · simp [h2]
          · subst h2
            simp [h3] at hbc ⊢
            exact ih ys zs hab hbc
          · have h4 : ¬ x < z := by omega
            simp [h4, h2] at hbc
        · have h3 : ¬ x < y := by omega
          simp [h3, h1] at hab

theorem bcmp_le_trans (a b c : Bytes)
    (hab : bcmp a b ≠ .gt) (hbc : bcmp b c ≠ .gt) : bcmp a c ≠ .gt := by
  cases h1 : bcmp a b with
  | gt => exact absurd h1 hab
  | eq =>
    rw [(bcmp_eq_iff a b).mp h1]; exact hbc
  | lt =>
    cases h2 : bcmp b c with
    | gt => exact absurd h2 hbc
    | eq =>
      rw [← (bcmp_eq_iff b c).mp h2]; simp [h1]
    | lt =>
      simp [bcmp_lt_trans a b c h1 h2]

theorem bcmp_lt_of_lt_of_le (a b c : Bytes)
    (hab : bcmp a b = .lt) (hbc : bcmp b c ≠ .gt) : bcmp a c = .lt := by
  cases h2 : bcmp b c with
  | gt => exact absurd h2 hbc
  | eq => rw [← (bcmp_eq_iff b c).mp h2]; exact hab
  | lt => exact bcmp_lt_trans a b c hab h2

theorem bcmp_lt_of_le_of_lt (a b c : Bytes)
    (hab : bcmp a b ≠ .gt) (hbc : bcmp b c = .lt) : bcmp a c = .lt := by
  cases h1 : bcmp a b with
  | gt => exact absurd h1 hab
  | eq => rw [(bcmp_eq_iff a b).mp h1]; exact hbc
  | lt => exact bcmp_lt_trans a b c h1 hbc

theorem bcmp_not_gt_of_lt (a b : Bytes) (h : bcmp a b = .lt) :
    bcmp a b ≠ .gt := by simp [h]

theorem bcmp_gt_iff_lt (a b : Bytes) : bcmp a b = .gt ↔ bcmp b a = .lt := by
  rw [bcmp_swap b a]
  cases bcmp b a <;> simp [Ordering.swap]

/-! ## Bloom filter (util, bloom.go)

`hash.Hash32` values are used reset-write-`Sum32`, i.e. as pure
functions of the input data; they are modelled as functions
`Bytes → Nat`.  The murmur3 seeds only determine which concrete
functions these are, so the theorems quantify over the hash functions. -/

structure BloomFilter where
  bitsets : List Bool
  hashes : List (Bytes → Nat)

/-- `BloomFilter.Add` (bloom.go): for each hash function, set the bit at
`h.Sum32() % uint32(len(bf.bitsets))`. -/
def BloomFilter.add (bf : BloomFilter) (data : Bytes) : BloomFilter :=
  let newBits :=
    bf.hashes.foldl (fun bits h => bits.set (h data % bits.length) true)
      bf.bitsets
  { bf with bitsets := newBits }

/-- `BloomFilter.Contains` (bloom.go): false as soon as one of the `k`
bits is unset, true when all are set. -/
def BloomFilter.contains (bf : BloomFilter) (data : Bytes) : Bool :=
  bf.hashes.all (fun h => bf.bitsets.getD (h data % bf.bitsets.length) false)

/-- The bit-setting fold inside `BloomFilter.Add`. -/
def setBits (bits : List Bool) (hs : List (Bytes → Nat)) (data : Bytes) :
    List Bool :=
  hs.foldl (fun b h => b.set (h data % b.length) true) bits

theorem BloomFilter.add_def (bf : BloomFilter) (data : Bytes) :
    bf.add data = { bf with bitsets := setBits bf.bitsets bf.hashes data } :=
  rfl

theorem setBits_length (bits : List Bool) (hs : List (Bytes → Nat))
    (data : Bytes) : (setBits bits hs data).length = bits.length := by
  induction hs generalizing bits with
  | nil => rfl
  | cons h rest ih =>
    simp only [setBits, List.foldl_cons] at *
    rw [ih, List.length_set]

theorem setBits_mono (bits : List Bool) (hs : List (Bytes → Nat))
    (data : Bytes) (i : Nat) (hi : bits.getD i false = true) :
    (setBits bits hs data).getD i false = true := by
  induction hs generalizing bits with
  | nil => exact hi
  | cons h rest ih =>
    simp only [setBits, List.foldl_cons] at *
    apply ih
    by_cases hij : (h data % bits.length) = i
    · subst hij
      by_cases hlt : h data % bits.length < bits.length
      · simp [List.getD, List.getElem?_set_self, hlt]
      · rw [List.set_eq_of_length_le (by omega)]
        exact hi
    · simpa [List.getD, List.getElem?_set_ne hij] using hi

theorem setBits_sets (bits : List Bool) (hs : List (Bytes → Nat))
    (data : Bytes) (h : Bytes → Nat) (hmem : h ∈ hs)
    (hm : 0 < bits.length) :
    (setBits bits hs data).getD (h data % bits.length) false = true := by
  induction hs generalizing bits with
  | nil => cases hmem
  | cons h0 rest ih =>
    simp only [setBits, List.foldl_cons]
    rcases List.mem_cons.mp hmem with heq | hmem'
    · subst heq
      apply setBits_mono
      have hlt : h data % bits.length < bits.length := Nat.mod_lt _ hm
      simp [List.getD, List.getElem?_set_self, hlt]
    · have hlen : (bits.set (h0 data % bits.length) true).length = bits.length :=
        List.length_set ..
      have := ih (bits.set (h0 data % bits.length) true) hmem' (by omega)
      rwa [hlen] at this

/-- Iterated `Add`, acting on the bit array only (the hash functions are
unchanged by `Add`). -/
def foldBits (hs : List (Bytes → Nat)) (bits : List Bool)
    (adds : List Bytes) : List Bool :=
  adds.foldl (fun b d => setBits b hs d) bits

theorem bloom_foldl_add (adds : List Bytes) (bf : BloomFilter) :
    adds.foldl BloomFilter.add bf =
      ⟨foldBits bf.hashes bf.bitsets adds, bf.hashes⟩ := by
  induction adds generalizing bf with
  | nil => rfl
  | cons d rest ih => exact ih (bf.add d)

theorem foldBits_length (hs : List (Bytes → Nat)) (bits : List Bool)
    (adds : List Bytes) : (foldBits hs bits adds).length = bits.length := by
  induction adds generalizing bits with
  | nil => rfl
  | cons d rest ih =>
    simp only [foldBits, List.foldl_cons] at *
    rw [ih, setBits_length]

theorem foldBits_mono (hs : List (Bytes → Nat)) (bits : List Bool)
    (adds : List Bytes) (i : Nat) (hi : bits.getD i false = true) :
    (foldBits hs bits adds).getD i false = true := by
  induction adds generalizing bits with
  | nil => exact hi
  | cons d rest ih =>
    simp only [foldBits, List.foldl_cons] at *
    exact ih _ (setBits_mono bits hs d i hi)

theorem foldBits_sets (hs : List (Bytes → Nat)) (bits : List Bool)
    (adds : List Bytes) (x : Bytes) (h : Bytes → Nat)
    (hx : x ∈ adds) (hmem : h ∈ hs) (hm : 0 < bits.length) :
    (foldBits hs bits adds).getD (h x % bits.length) false = true := by
  induction adds generalizing bits with
  | nil => cases hx
  | cons d rest ih =>
    simp only [foldBits, List.foldl_cons] at *
    rcases List.mem_cons.mp hx with heq | hmem'
    · subst heq
      exact foldBits_mono hs _ rest _ (setBits_sets bits hs x h hmem hm)
    · have := ih (setBits bits hs d) hmem' (by rw [setBits_length]; omega)
      rwa [setBits_length bits hs d] at this

/-- C9: Bloom filter has no false negatives: for every filter with at
least one hash function and a non-empty bit array and every finite
sequence of `Add` calls, `Contains x` is true for every `x` passed to
some `Add`; and `Contains` returns false only by finding at least one
of `x`'s bit positions unset. -/
theorem C9_bloom_no_false_negatives (bf : BloomFilter) (adds : List Bytes)
    (x : Bytes) (hm : bf.bitsets ≠ []) (hk : bf.hashes ≠ [])
    (hx : x ∈ adds) :
    (adds.foldl BloomFilter.add bf).contains x = true ∧
    (∀ y : Bytes, (adds.foldl BloomFilter.add bf).contains y = false →
      ∃ h ∈ bf.hashes,
        (adds.foldl BloomFilter.add bf).bitsets.getD
          (h y % bf.bitsets.length) false = false) := by
  have hm' : 0 < bf.bitsets.length := by
    cases hb : bf.bitsets with
    | nil => exact absurd hb hm
    | cons a l => simp
  constructor
  · rw [bloom_foldl_add]
    simp only [BloomFilter.contains, List.all_eq_true, foldBits_length]
    intro h hmem
    exact foldBits_sets bf.hashes bf.bitsets adds x h hx hmem hm'
  · intro y hc
    rw [bloom_foldl_add] at hc ⊢
    simp only [BloomFilter.contains] at hc
    rcases List.all_eq_false.mp hc with ⟨h, hmem, hbit⟩
    refine ⟨h, hmem, ?_⟩
    simp only [foldBits_length] at hbit ⊢
    simpa using hbit

/-- A concrete Bloom filter for the C9 witness. -/
def bfW : BloomFilter := ⟨[false, false, false], [fun d => d.length]⟩

theorem C9_witness :
    (([([1, 2] : Bytes)].foldl BloomFilter.add bfW).contains [1, 2] = true) ∧
    (∀ y : Bytes, ([([1, 2] : Bytes)].foldl BloomFilter.add bfW).contains y = false →
      ∃ h ∈ bfW.hashes,
        ([([1, 2] : Bytes)].foldl BloomFilter.add bfW).bitsets.getD
          (h y % bfW.bitsets.length) false = false) :=
  C9_bloom_no_false_negatives bfW [[1, 2]] [1, 2]
    (by simp [bfW]) (by simp [bfW]) (by simp)

/-! ## Merge (sstable.go, `Merge`)

`util.Heap` wraps Go's `container/heap`: `Pop` removes and returns a
least element under the comparator.  In every heap state `Merge`
builds, at most one item per source list is resident, so the
comparator is total on the resident items and the least element is
unique; the concrete choice made by `popMin` below (the leftmost least
element) is therefore exact. -/

instance : Inhabited Entry := ⟨⟨[], [], false⟩⟩

/-- The `heapItem` struct local to `Merge`. -/
structure HeapItem where
  entry : Entry
  listIndex : Nat
  entryIndex : Nat
deriving DecidableEq, Repr, Inhabited

/-- The comparator passed to `util.NewHeap` in `Merge`: keys ascending;
on equal keys the higher list index ("last written wins") comes
first. -/
def mergeLess (a b : HeapItem) : Bool :=
  match bcmp a.entry.key b.entry.key with
  | .eq => decide (a.listIndex > b.listIndex)
  | .lt => true
  | .gt => false

theorem mergeLess_true_iff (a b : HeapItem) : mergeLess a b = true ↔
    bcmp a.entry.key b.entry.key = .lt ∨
    (bcmp a.entry.key b.entry.key = .eq ∧ b.listIndex < a.listIndex) := by
  unfold mergeLess
  cases h : bcmp a.entry.key b.entry.key <;> simp [h, Nat.lt_iff_add_one_le]

theorem mergeLess_false_iff (a b : HeapItem) : mergeLess a b = false ↔
    bcmp a.entry.key b.entry.key = .gt ∨
    (bcmp a.entry.key b.entry.key = .eq ∧ a.listIndex ≤ b.listIndex) := by
  unfold mergeLess
  cases h : bcmp a.entry.key b.entry.key <;> simp [h, Nat.not_lt]

theorem mergeLess_asymm (a b : HeapItem) (h : mergeLess a b = true) :
    mergeLess b a = false := by
  rw [mergeLess_true_iff] at h
  rw [mergeLess_false_iff]
  rcases h with h | ⟨he, hi⟩
  · left
    rw [bcmp_swap, h]; rfl
  · right
    have : a.entry.key = b.entry.key := (bcmp_eq_iff _ _).mp he
    exact ⟨by rw [this, bcmp_refl], by omega⟩

theorem mergeLess_neg_trans (a b c : HeapItem)
    (hab : mergeLess a b = false) (hbc : mergeLess b c = false) :
    mergeLess a c = false := by
  rw [mergeLess_false_iff] at hab hbc ⊢
  rcases hab with h1 | ⟨h1, hi1⟩
  · rcases hbc with h2 | ⟨h2, _⟩
    · left
      have h1' : bcmp b.entry.key a.entry.key = .lt :=
        (bcmp_gt_iff_lt _ _).mp h1
      have h2' : bcmp c.entry.key b.entry.key = .lt :=
        (bcmp_gt_iff_lt _ _).mp h2
      exact (bcmp_gt_iff_lt _ _).mpr (bcmp_lt_trans _ _ _ h2' h1')
    · left
      have heq : b.entry.key = c.entry.key := (bcmp_eq_iff _ _).mp h2
      rw [← heq]; exact h1
  · have heq : a.entry.key = b.entry.key := (bcmp_eq_iff _ _).mp h1
    rcases hbc with h2 | ⟨h2, hi2⟩
    · left; rw [heq]; exact h2
    · right
      have heq2 : b.entry.key = c.entry.key := (bcmp_eq_iff _ _).mp h2
      exact ⟨by rw [heq, heq2, bcmp_refl], by omega⟩

/-- Model of `container/heap` pop: remove and return a least element. -/
def popMin : List HeapItem → Option (HeapItem × List HeapItem)
  | [] => none
  | a :: rest =>
    match popMin rest with
    | none => some (a, [])
    | some (m, rest') =>
      if mergeLess m a then some (m, a :: rest') else some (a, rest)

theorem popMin_none_iff : ∀ (h : List HeapItem), popMin h = none ↔ h = [] := by
  intro h
  cases h with
  | nil => simp [popMin]
  | cons a rest =>
    simp only [popMin]
    cases hr : popMin rest with
    | none => simp
    | some p =>
      by_cases hl : mergeLess p.1 a <;> simp [hl]

theorem popMin_perm (h : List HeapItem) (m : HeapItem) (r : List HeapItem)
    (hp : popMin h = some (m, r)) : h.Perm (m :: r) := by
  induction h generalizing m r with
  | nil => simp [popMin] at hp
  | cons a rest ih =>
    simp only [popMin] at hp
    cases hr : popMin rest with
    | none =>
      rw [hr] at hp
      have : rest = [] := (popMin_none_iff rest).mp hr
      subst this
      simp at hp
      simp [hp.1, hp.2]
    | some p =>
      rw [hr] at hp
      by_cases hl : mergeLess p.1 a
      · simp [hl] at hp
        obtain ⟨rfl, rfl⟩ := hp
        have hperm := ih p.1 p.2 (by rw [hr])
        exact (hperm.cons a).trans (List.Perm.swap p.1 a p.2)
      · simp [hl] at hp
        obtain ⟨rfl, rfl⟩ := hp
        exact List.Perm.refl _

theorem popMin_min (h : List HeapItem) (m : HeapItem) (r : List HeapItem)
    (hp : popMin h = some (m, r)) : ∀ b ∈ r, mergeLess b m = false := by
  induction h generalizing m r with
  | nil => simp [popMin] at hp
  | cons a rest ih =>
    simp only [popMin] at hp
    cases hr : popMin rest with
    | none =>
      rw [hr] at hp
      simp at hp
      obtain ⟨rfl, rfl⟩ := hp
      intro b hb; cases hb
    | some p =>
      rw [hr] at hp
      by_cases hl : mergeLess p.1 a
      · simp [hl] at hp
        obtain ⟨rfl, rfl⟩ := hp
        intro b hb
        rcases List.mem_cons.mp hb with rfl | hb'
        · exact mergeLess_asymm _ _ hl
        · exact ih p.1 p.2 (by rw [hr]) b hb'
      · simp [hl] at hp
        obtain ⟨rfl, rfl⟩ := hp
        intro b hb
        have hmin := ih p.1 p.2 (by rw [hr])
        have hperm := popMin_perm rest p.1 p.2 (by rw [hr])
        have hb2 : b ∈ p.1 :: p.2 := hperm.mem_iff.mp hb
        have hpa : mergeLess p.1 a = false := by
          cases hq : mergeLess p.1 a with
          | false => rfl
          | true => exact absurd hq hl
        rcases List.mem_cons.mp hb2 with rfl | hb3
        · exact hpa
        · exact mergeLess_neg_trans b p.1 a (hmin b hb3) hpa

/-- `entries[listIndex]` in `Merge` (indexing is always in range there). -/
def listsGet (lists : List (List Entry)) (i : Nat) : List Entry :=
  lists.getD i []

/-- Entries of a source list not yet consumed through this heap item. -/
def itemRem (lists : List (List Entry)) (it : HeapItem) : Nat :=
  (listsGet lists it.listIndex).length - it.entryIndex

/-- Termination measure for the pop-push loop of `Merge`. -/
def heapMeasure (lists : List (List Entry)) (heap : List HeapItem) : Nat :=
  heap.length + (heap.map (itemRem lists)).sum

theorem heapMeasure_perm (lists : List (List Entry))
    (h h2 : List HeapItem) (hp : h.Perm h2) :
    heapMeasure lists h = heapMeasure lists h2 := by
  unfold heapMeasure
  rw [hp.length_eq, (hp.map (itemRem lists)).sum_eq]

/-- Refilling step of the `Merge` loop: after popping `item`, push the
next entry of its source list, if any (`if entryIndex < len(list)`). -/
def heapStep (lists : List (List Entry)) (item : HeapItem)
    (rest : List HeapItem) : List HeapItem :=
  if item.entryIndex + 1 < (listsGet lists item.listIndex).length
  then ⟨(listsGet lists item.listIndex).getD (item.entryIndex + 1) default,
        item.listIndex, item.entryIndex + 1⟩ :: rest
  else rest

/-- Output step of the `Merge` loop: append the popped entry unless it
is a tombstone or repeats the last appended key
(`len(result) == 0 || !bytes.Equal(...)`). -/
def resultStep (result : List Entry) (item : HeapItem) : List Entry :=
  if (!item.entry.tombstone &&
      (match result.getLast? with
       | none => true
       | some last => !(beq last.key item.entry.key)))
  then result ++ [item.entry] else result

/-- The pop-push-filter loop of `Merge` (sstable.go lines 169-189). -/
def mergeLoop (lists : List (List Entry)) (heap : List HeapItem)
    (result : List Entry) : List Entry :=
  match hpop : popMin heap with
  | none => result
  | some (item, rest) =>
    mergeLoop lists (heapStep lists item rest) (resultStep result item)
termination_by heapMeasure lists heap
decreasing_by
  have hpe := popMin_perm heap item rest hpop
  have hm : heapMeasure lists heap =
      1 + itemRem lists item + heapMeasure lists rest := by
    rw [heapMeasure_perm lists heap (item :: rest) hpe]
    simp only [heapMeasure, List.length_cons, List.map_cons, List.sum_cons]
    omega
  have hrem : itemRem lists item =
      (listsGet lists item.listIndex).length - item.entryIndex := rfl
  unfold heapStep
  by_cases hlt : item.entryIndex + 1 < (listsGet lists item.listIndex).length
  · rw [if_pos hlt]
    have h2 : heapMeasure lists
        (⟨(listsGet lists item.listIndex).getD (item.entryIndex + 1) default,
          item.listIndex, item.entryIndex + 1⟩ :: rest) =
        1 + ((listsGet lists item.listIndex).length - (item.entryIndex + 1)) +
          heapMeasure lists rest := by
      simp only [heapMeasure, List.length_cons, List.map_cons, List.sum_cons,
        itemRem]
      omega
    rw [h2, hm]
    omega
  · rw [if_neg hlt, hm]
    omega

theorem mergeLoop_eq_none (lists : List (List Entry)) (heap : List HeapItem)
    (result : List Entry) (hpop : popMin heap = none) :
    mergeLoop lists heap result = result := by
  rw [mergeLoop]
  split
  · rfl
  · next item rest heq => rw [hpop] at heq; cases heq

theorem mergeLoop_eq_some (lists : List (List Entry)) (heap : List HeapItem)
    (result : List Entry) (item : HeapItem) (rest : List HeapItem)
    (hpop : popMin heap = some (item, rest)) :
    mergeLoop lists heap result =
      mergeLoop lists (heapStep lists item rest) (resultStep result item) := by
  rw [mergeLoop]
  split
  · next heq => rw [hpop] at heq; cases heq
  · next item2 rest2 heq =>
    rw [hpop] at heq
    injection heq with h
    injection h with h1 h2
    subst h1
    subst h2
    rfl

/-- The seeding loop of `Merge` (sstable.go lines 157-165): push each
non-empty input list's head item. -/
def seedHeap (lists : List (List Entry)) : List HeapItem :=
  (List.range lists.length).foldl
    (fun h i =>
      if 0 < (listsGet lists i).length
      then ⟨(listsGet lists i).getD 0 default, i, 0⟩ :: h
      else h) []

/-- `Merge` (sstable.go lines 140-192): k-way merge of sorted entry
lists through the heap, skipping tombstone entries and duplicate keys.
The Go function's `error` result is modelled by `Except String`; the
source returns `result, nil` on its only return path. -/
def Merge (lists : List (List Entry)) : Except String (List Entry) :=
  Except.ok (mergeLoop lists (seedHeap lists) [])

theorem listsGet_eq_nil (lists : List (List Entry))
    (h : ∀ l ∈ lists, l = []) (i : Nat) : listsGet lists i = [] := by
  unfold listsGet
  by_cases hi : i < lists.length
  · rw [List.getD_eq_getElem lists [] hi]
    exact h _ (List.getElem_mem hi)
  · exact List.getD_eq_default lists [] (by omega)

theorem seedHeap_all_nil (lists : List (List Entry))
    (h : ∀ l ∈ lists, l = []) : seedHeap lists = [] := by
  unfold seedHeap
  have step : ∀ (is : List Nat) (acc : List HeapItem),
      (∀ i ∈ is, ¬ 0 < (listsGet lists i).length) →
      is.foldl (fun hp i =>
        if 0 < (listsGet lists i).length
        then ⟨(listsGet lists i).getD 0 default, i, 0⟩ :: hp
        else hp) acc = acc := by
    intro is
    induction is with
    | nil => intro acc _; rfl
    | cons j js ih =>
      intro acc hall
      simp only [List.foldl_cons]
      rw [if_neg (hall j (by simp))]
      exact ih acc (fun i hi => hall i (by simp [hi]))
  apply step
  intro i _
  rw [listsGet_eq_nil lists h i]
  simp

/-- C1 (failing input): evaluating `Merge` at the claim's own example
`Merge([[("a",1,false)]], [[("a",_,true)]])` — a tombstone for key "a"
in the more recent list, a live entry in the older list.  The loop
skips the tombstone without recording its key, so the older entry
`("a",1)` is then appended: the result is `[("a",1)]`, not the empty
list the claim requires. -/
theorem C1_merge_tombstone_failing_input :
    Merge [[⟨[97], [1], false⟩], [⟨[97], [0], true⟩]] =
      Except.ok [⟨[97], [1], false⟩] := by
  simp [Merge, seedHeap, listsGet]
  rw [mergeLoop]
  simp [popMin, mergeLess, bcmp, listsGet, heapStep, resultStep, beq]
  rw [mergeLoop]
  simp [popMin, mergeLess, bcmp, listsGet, heapStep, resultStep, beq]
  rw [mergeLoop]
  simp [popMin]

/-- C10: `Merge` never fails: its error result is nil on every input
(the model returns `Except.ok` on the source's only return path), and
merging zero lists or all-empty lists yields the empty result list. -/
theorem C10_merge_never_fails :
    (∀ lists : List (List Entry), ∃ r, Merge lists = Except.ok r) ∧
    Merge [] = Except.ok [] ∧
    (∀ lists : List (List Entry), (∀ l ∈ lists, l = []) →
      Merge lists = Except.ok []) := by
  refine ⟨fun lists => ⟨_, rfl⟩, ?_, ?_⟩
  · show Except.ok (mergeLoop [] (seedHeap []) []) = Except.ok []
    have h0 : seedHeap [] = [] := rfl
    rw [h0, mergeLoop]
    simp [popMin]
  · intro lists hall
    show Except.ok (mergeLoop lists (seedHeap lists) []) = Except.ok []
    rw [seedHeap_all_nil lists hall, mergeLoop]
    simp [popMin]

theorem C10_witness : Merge [[], []] = Except.ok [] :=
  C10_merge_never_fails.2.2 [[], []] (by simp)

/-! ### Invariants of the Merge loop -/

/-- Key order `a ≤ b` (byte-lexicographic). -/
def keyLe (a b : Bytes) : Prop := bcmp a b ≠ .gt

/-- Key order `a < b` (byte-lexicographic). -/
def keyLt (a b : Bytes) : Prop := bcmp a b = .lt

instance (a b : Bytes) : Decidable (keyLe a b) :=
  inferInstanceAs (Decidable (bcmp a b ≠ .gt))

instance (a b : Bytes) : Decidable (keyLt a b) :=
  inferInstanceAs (Decidable (bcmp a b = .lt))

/-- An entry list sorted strictly ascending by key. -/
def SortedE (l : List Entry) : Prop :=
  l.Pairwise (fun a b => bcmp a.key b.key = .lt)

/-- Validity of one heap item with respect to the input lists: it names
a real list position and carries the entry stored there. -/
def ItemOk (lists : List (List Entry)) (it : HeapItem) : Prop :=
  it.listIndex < lists.length ∧
  it.entryIndex < (listsGet lists it.listIndex).length ∧
  it.entry = (listsGet lists it.listIndex).getD it.entryIndex default

/-- Heap-state invariant: every item is valid and at most one item per
source list is resident. -/
def HeapOk (lists : List (List Entry)) (heap : List HeapItem) : Prop :=
  (∀ it ∈ heap, ItemOk lists it) ∧
  heap.Pairwise (fun a b => a.listIndex ≠ b.listIndex)

theorem keyLe_of_lt {a b : Bytes} (h : keyLt a b) : keyLe a b := by
  simp [keyLe, keyLt] at *
  simp [h]

theorem keyLe_refl (a : Bytes) : keyLe a a := by
  simp [keyLe, bcmp_refl]

theorem keyLt_of_le_ne {a b : Bytes} (h : keyLe a b) (hne : a ≠ b) :
    keyLt a b := by
  unfold keyLe at h
  unfold keyLt
  cases hc : bcmp a b with
  | lt => rfl
  | eq => exact absurd ((bcmp_eq_iff a b).mp hc) hne
  | gt => exact absurd hc h

theorem keyLt_of_le_of_lt {a b c : Bytes} (h1 : keyLe a b) (h2 : keyLt b c) :
    keyLt a c := bcmp_lt_of_le_of_lt a b c h1 h2

theorem keyLt_of_lt_of_le {a b c : Bytes} (h1 : keyLt a b) (h2 : keyLe b c) :
    keyLt a c := bcmp_lt_of_lt_of_le a b c h1 h2

theorem keyLe_trans {a b c : Bytes} (h1 : keyLe a b) (h2 : keyLe b c) :
    keyLe a c := bcmp_le_trans a b c h1 h2

theorem keyLt_trans {a b c : Bytes} (h1 : keyLt a b) (h2 : keyLt b c) :
    keyLt a c := bcmp_lt_trans a b c h1 h2

theorem getLast?_mem {α : Type} (l : List α) (a : α)
    (h : l.getLast? = some a) : a ∈ l := by
  induction l with
  | nil => cases h
  | cons x xs ih =>
    cases xs with
    | nil =>
      simp at h
      simp [h]
    | cons y ys =>
      rw [List.getLast?_cons_cons] at h
      exact List.mem_cons_of_mem x (ih h)

theorem sorted_mem_getLast (result : List Entry) (hs : SortedE result)
    (x : Entry) (hx : x ∈ result) (lk : Entry)
    (hlk : result.getLast? = some lk) : x = lk ∨ keyLt x.key lk.key := by
  induction result with
  | nil => cases hx
  | cons a rest ih =>
    cases rest with
    | nil =>
      simp at hx hlk
      subst hx
      subst hlk
      exact Or.inl rfl
    | cons b rs =>
      have hlk2 : (b :: rs).getLast? = some lk := by
        rwa [List.getLast?_cons_cons] at hlk
      have hs2 : SortedE (b :: rs) := (List.pairwise_cons.mp hs).2
      rcases List.mem_cons.mp hx with rfl | hx2
      · right
        have hmem : lk ∈ b :: rs := getLast?_mem _ _ hlk2
        exact (List.pairwise_cons.mp hs).1 lk hmem
      · exact ih hs2 hx2 hlk2

theorem popMin_mem (heap : List HeapItem) (item : HeapItem)
    (rest : List HeapItem) (hpop : popMin heap = some (item, rest)) :
    item ∈ heap :=
  (popMin_perm heap item rest hpop).mem_iff.mpr (List.mem_cons_self _ _)

theorem popMin_rest_subset (heap : List HeapItem) (item : HeapItem)
    (rest : List HeapItem) (hpop : popMin heap = some (item, rest)) :
    ∀ b ∈ rest, b ∈ heap :=
  fun b hb =>
    (popMin_perm heap item rest hpop).mem_iff.mpr (List.mem_cons_of_mem _ hb)

/-- The popped item's key is `≤` every remaining item's key. -/
theorem popMin_key_le (heap : List HeapItem) (item : HeapItem)
    (rest : List HeapItem) (hpop : popMin heap = some (item, rest)) :
    ∀ b ∈ rest, keyLe item.entry.key b.entry.key := by
  intro b hb
  have hless := popMin_min heap item rest hpop b hb
  rw [mergeLess_false_iff] at hless
  unfold keyLe
  rcases hless with h | ⟨h, _⟩
  · rw [(bcmp_gt_iff_lt _ _).mp h]
    simp
  · rw [(bcmp_eq_iff _ _).mp h, bcmp_refl]
    simp

theorem sorted_listsGet (lists : List (List Entry))
    (HS : ∀ l ∈ lists, SortedE l) (i : Nat) : SortedE (listsGet lists i) := by
  unfold listsGet
  by_cases hi : i < lists.length
  · rw [List.getD_eq_getElem lists [] hi]
    exact HS _ (List.getElem_mem hi)
  · rw [List.getD_eq_default lists [] (by omega)]
    exact List.Pairwise.nil

/-- Within one sorted list, a later position has a strictly larger key. -/
theorem sorted_getD_lt (l : List Entry) (hs : SortedE l) (i j : Nat)
    (hij : i < j) (hj : j < l.length) :
    keyLt (l.getD i default).key (l.getD j default).key := by
  have hi : i < l.length := by omega
  rw [List.getD_eq_getElem l default hi, List.getD_eq_getElem l default hj]
  exact List.pairwise_iff_getElem.mp hs i j hi hj hij

/-- The key pushed by `heapStep` is strictly larger than the popped key. -/
theorem pushed_key_gt (lists : List (List Entry))
    (HS : ∀ l ∈ lists, SortedE l) (item : HeapItem)
    (hok : ItemOk lists item)
    (hlt : item.entryIndex + 1 < (listsGet lists item.listIndex).length) :
    keyLt item.entry.key
      ((listsGet lists item.listIndex).getD (item.entryIndex + 1)
        default).key := by
  obtain ⟨_, _, hentry⟩ := hok
  rw [hentry]
  exact sorted_getD_lt _ (sorted_listsGet lists HS item.listIndex) _ _
    (Nat.lt_succ_self _) hlt

/-- `heapStep` preserves the heap invariant. -/
theorem heapStep_ok (lists : List (List Entry)) (heap : List HeapItem)
    (item : HeapItem) (rest : List HeapItem)
    (hpop : popMin heap = some (item, rest)) (hok : HeapOk lists heap) :
    HeapOk lists (heapStep lists item rest) := by
  obtain ⟨hval, hdist⟩ := hok
  have hperm := popMin_perm heap item rest hpop
  have hdist2 : (item :: rest).Pairwise (fun a b => a.listIndex ≠ b.listIndex) :=
    (hperm.pairwise_iff (fun h => h.symm)).mp hdist
  obtain ⟨hhead, hrestp⟩ := List.pairwise_cons.mp hdist2
  have hvalrest : ∀ b ∈ rest, ItemOk lists b :=
    fun b hb => hval b (popMin_rest_subset heap item rest hpop b hb)
  unfold heapStep
  by_cases hlt : item.entryIndex + 1 < (listsGet lists item.listIndex).length
  · rw [if_pos hlt]
    constructor
    · intro it hit
      rcases List.mem_cons.mp hit with rfl | hit2
      · exact ⟨(hval item (popMin_mem heap item rest hpop)).1, hlt, rfl⟩
      · exact hvalrest it hit2
    · rw [List.pairwise_cons]
      exact ⟨fun b hb => hhead b hb, hrestp⟩
  · rw [if_neg hlt]
    exact ⟨hvalrest, hrestp⟩

theorem getLast?_isSome {α : Type} (l : List α) (h : l ≠ []) :
    ∃ a, l.getLast? = some a := by
  induction l with
  | nil => exact absurd rfl h
  | cons x xs ih =>
    cases xs with
    | nil => exact ⟨x, rfl⟩
    | cons y ys =>
      obtain ⟨a, ha⟩ := ih (by simp)
      exact ⟨a, by rw [List.getLast?_cons_cons]; exact ha⟩

/-- Case analysis of the output step: either nothing is appended, or
the popped entry is appended, in which case it is not a tombstone and
its key differs from the last appended key. -/
theorem resultStep_cases (result : List Entry) (item : HeapItem) :
    resultStep result item = result ∨
    (resultStep result item = result ++ [item.entry] ∧
     item.entry.tombstone = false ∧
     ∀ lk, result.getLast? = some lk → lk.key ≠ item.entry.key) := by
  unfold resultStep
  cases ht : item.entry.tombstone
  · cases hl : result.getLast? with
    | none =>
      right
      refine ⟨by simp [ht], rfl, ?_⟩
      intro lk hlk
      cases hlk
    | some lk =>
      cases hb : beq lk.key item.entry.key
      · right
        refine ⟨by simp [ht, hb], rfl, ?_⟩
        intro lk2 hlk2 hkey
        injection hlk2 with h2
        subst h2
        unfold beq at hb
        rw [hkey, bcmp_refl] at hb
        simp at hb
      · left
        simp [ht, hb]
  · left
    simp [ht]

/-- Core loop invariant for C2: with a valid heap and sorted inputs,
the loop emits a strictly sorted extension of `result`, and every
emitted entry is a non-tombstone. -/
theorem mergeLoop_sorted_core (lists : List (List Entry))
    (HS : ∀ l ∈ lists, SortedE l) :
    ∀ heap result, HeapOk lists heap → SortedE result →
    (∀ x ∈ result, ∀ it ∈ heap, keyLe x.key it.entry.key) →
    SortedE (mergeLoop lists heap result) ∧
    (∀ e ∈ mergeLoop lists heap result, e ∈ result ∨ e.tombstone = false) := by
  intro heap result
  induction heap, result using mergeLoop.induct lists with
  | case1 heap result hpop =>
    intro _ hs _
    rw [mergeLoop_eq_none lists heap result hpop]
    exact ⟨hs, fun e he => Or.inl he⟩
  | case2 heap result item rest hpop ih =>
    intro hok hs hle
    rw [mergeLoop_eq_some lists heap result item rest hpop]
    have hok2 := heapStep_ok lists heap item rest hpop hok
    have hitem := popMin_mem heap item rest hpop
    have hitemok := hok.1 item hitem
    have hstepmem : ∀ b ∈ heapStep lists item rest,
        b ∈ rest ∨
        (b = ⟨(listsGet lists item.listIndex).getD (item.entryIndex + 1)
                default, item.listIndex, item.entryIndex + 1⟩ ∧
         item.entryIndex + 1 < (listsGet lists item.listIndex).length) := by
      intro b hb
      unfold heapStep at hb
      by_cases hlt : item.entryIndex + 1 < (listsGet lists item.listIndex).length
      · rw [if_pos hlt] at hb
        rcases List.mem_cons.mp hb with rfl | h2
        · exact Or.inr ⟨rfl, hlt⟩
        · exact Or.inl h2
      · rw [if_neg hlt] at hb
        exact Or.inl hb
    have hrle := popMin_key_le heap item rest hpop
    have hxitem : ∀ x ∈ result, keyLe x.key item.entry.key :=
      fun x hx => hle x hx item hitem
    have hxstep : ∀ x ∈ result, ∀ b ∈ heapStep lists item rest,
        keyLe x.key b.entry.key := by
      intro x hx b hb
      rcases hstepmem b hb with h2 | ⟨rfl, hlt⟩
      · exact hle x hx b (popMin_rest_subset heap item rest hpop b h2)
      · exact keyLe_of_lt (keyLt_of_le_of_lt (hxitem x hx)
          (pushed_key_gt lists HS item hitemok hlt))
    have histep : ∀ b ∈ heapStep lists item rest,
        keyLe item.entry.key b.entry.key := by
      intro b hb
      rcases hstepmem b hb with h2 | ⟨rfl, hlt⟩
      · exact hrle b h2
      · exact keyLe_of_lt (pushed_key_gt lists HS item hitemok hlt)
    rcases resultStep_cases result item with hrs | ⟨hrs, htomb, hne⟩
    · have := ih hok2 (by rw [hrs]; exact hs)
        (by rw [hrs]; exact hxstep)
      refine ⟨this.1, fun e he => ?_⟩
      rcases this.2 e he with h2 | h2
      · rw [hrs] at h2
        exact Or.inl h2
      · exact Or.inr h2
    · have hltall : ∀ x ∈ result, keyLt x.key item.entry.key := by
        intro x hx
        have hne2 : result ≠ [] := by
          intro hc
          rw [hc] at hx
          cases hx
        obtain ⟨lk, hlk⟩ := getLast?_isSome result hne2
        have hlklt : keyLt lk.key item.entry.key :=
          keyLt_of_le_ne (hxitem lk (getLast?_mem result lk hlk))
            (hne lk hlk)
        rcases sorted_mem_getLast result hs x hx lk hlk with rfl | hxlt
        · exact hlklt
        · exact keyLt_trans hxlt hlklt
      have hs2 : SortedE (result ++ [item.entry]) := by
        refine List.pairwise_append.mpr ⟨hs, List.pairwise_singleton _ _, ?_⟩
        intro a ha b hb
        have hb2 := List.mem_singleton.mp hb
        subst hb2
        exact hltall a ha
      have hle2 : ∀ x ∈ result ++ [item.entry],
          ∀ b ∈ heapStep lists item rest, keyLe x.key b.entry.key := by
        intro x hx b hb
        rcases List.mem_append.mp hx with h2 | h2
        · exact hxstep x h2 b hb
        · have h3 := List.mem_singleton.mp h2
          subst h3
          exact histep b hb
      have := ih hok2 (by rw [hrs]; exact hs2) (by rw [hrs]; exact hle2)
      refine ⟨this.1, fun e he => ?_⟩
      rcases this.2 e he with h2 | h2
      · rw [hrs] at h2
        rcases List.mem_append.mp h2 with h3 | h3
        · exact Or.inl h3
        · have h4 := List.mem_singleton.mp h3
          subst h4
          exact Or.inr htomb
      · exact Or.inr h2

/-- Entries of a source list not yet popped through this heap item. -/
def remOf (lists : List (List Entry)) (it : HeapItem) : List Entry :=
  (listsGet lists it.listIndex).drop it.entryIndex

theorem remOf_eq_cons (lists : List (List Entry)) (it : HeapItem)
    (hok : ItemOk lists it) :
    remOf lists it =
      it.entry :: (listsGet lists it.listIndex).drop (it.entryIndex + 1) := by
  obtain ⟨_, hlt, hentry⟩ := hok
  unfold remOf
  rw [List.drop_eq_getElem_cons hlt, hentry,
    List.getD_eq_getElem _ default hlt]

theorem sorted_remOf (lists : List (List Entry))
    (HS : ∀ l ∈ lists, SortedE l) (it : HeapItem) :
    SortedE (remOf lists it) :=
  List.Pairwise.sublist (List.drop_sublist _ _)
    (sorted_listsGet lists HS it.listIndex)

theorem sorted_head_le (a : Entry) (l : List Entry)
    (hs : SortedE (a :: l)) (e : Entry) (he : e ∈ a :: l) :
    keyLe a.key e.key := by
  rcases List.mem_cons.mp he with rfl | h2
  · exact keyLe_refl _
  · exact keyLe_of_lt ((List.pairwise_cons.mp hs).1 e h2)

theorem mem_drop_succ_lt {α : Type} (l : List α) (n : Nat) (e : α)
    (he : e ∈ l.drop (n + 1)) : n + 1 < l.length := by
  by_contra hc
  rw [List.drop_eq_nil_of_le (by omega)] at he
  cases he

theorem mem_drop_succ_mem_drop {α : Type} (l : List α) (n : Nat) (e : α)
    (he : e ∈ l.drop (n + 1)) : e ∈ l.drop n := by
  have : l.drop (n + 1) = (l.drop n).drop 1 := by
    rw [List.drop_drop]
  rw [this] at he
  exact (List.drop_sublist 1 (l.drop n)).mem he

theorem mem_heapStep_of_mem_rest (lists : List (List Entry))
    (item : HeapItem) (rest : List HeapItem) (b : HeapItem)
    (hb : b ∈ rest) : b ∈ heapStep lists item rest := by
  unfold heapStep
  by_cases hlt : item.entryIndex + 1 < (listsGet lists item.listIndex).length
  · rw [if_pos hlt]
    exact List.mem_cons_of_mem _ hb
  · rwa [if_neg hlt]

/-- Membership shape of `heapStep`. -/
theorem heapStep_mem (lists : List (List Entry)) (item : HeapItem)
    (rest : List HeapItem) (b : HeapItem) (hb : b ∈ heapStep lists item rest) :
    b ∈ rest ∨
    (b = ⟨(listsGet lists item.listIndex).getD (item.entryIndex + 1) default,
          item.listIndex, item.entryIndex + 1⟩ ∧
     item.entryIndex + 1 < (listsGet lists item.listIndex).length) := by
  unfold heapStep at hb
  by_cases hlt : item.entryIndex + 1 < (listsGet lists item.listIndex).length
  · rw [if_pos hlt] at hb
    rcases List.mem_cons.mp hb with rfl | h2
    · exact Or.inr ⟨rfl, hlt⟩
    · exact Or.inl h2
  · rw [if_neg hlt] at hb
    exact Or.inl hb

/-- Once an entry with key `≥ k` has been appended last, the loop never
appends another entry with key `k`: the `k`-filtered output is frozen. -/
theorem mergeLoop_k_frozen (lists : List (List Entry))
    (HS : ∀ l ∈ lists, SortedE l) (k : Bytes) :
    ∀ heap result, HeapOk lists heap →
    (∃ lk, result.getLast? = some lk ∧ keyLe k lk.key ∧
      (∀ it ∈ heap, keyLe lk.key it.entry.key)) →
    (mergeLoop lists heap result).filter (fun e => beq e.key k) =
      result.filter (fun e => beq e.key k) := by
  intro heap result
  induction heap, result using mergeLoop.induct lists with
  | case1 heap result hpop =>
    intro _ _
    rw [mergeLoop_eq_none lists heap result hpop]
  | case2 heap result item rest hpop ih =>
    intro hok hinv
    obtain ⟨lk, hlast, hkle, hheap⟩ := hinv
    rw [mergeLoop_eq_some lists heap result item rest hpop]
    have hok2 := heapStep_ok lists heap item rest hpop hok
    have hitem := popMin_mem heap item rest hpop
    have hitemok := hok.1 item hitem
    have hlkitem : keyLe lk.key item.entry.key := hheap item hitem
    have hstepge : ∀ z : Bytes, keyLe z lk.key →
        ∀ b ∈ heapStep lists item rest, keyLe z b.entry.key := by
      intro z hz b hb
      rcases heapStep_mem lists item rest b hb with h2 | ⟨rfl, hlt⟩
      · exact keyLe_trans hz
          (hheap b (popMin_rest_subset heap item rest hpop b h2))
      · exact keyLe_trans (keyLe_trans hz hlkitem)
          (keyLe_of_lt (pushed_key_gt lists HS item hitemok hlt))
    rcases resultStep_cases result item with hrs | ⟨hrs, _, hne⟩
    · rw [ih hok2 (by
        rw [hrs]
        exact ⟨lk, hlast, hkle, fun b hb => hstepge lk.key (keyLe_refl _) b hb⟩)]
      rw [hrs]
    · have hlkne : lk.key ≠ item.entry.key := hne lk hlast
      have hlklt : keyLt lk.key item.entry.key :=
        keyLt_of_le_ne hlkitem hlkne
      have hkitem : keyLt k item.entry.key := keyLt_of_le_of_lt hkle hlklt
      have hstep2 : ∀ b ∈ heapStep lists item rest,
          keyLe item.entry.key b.entry.key := by
        intro b hb
        rcases heapStep_mem lists item rest b hb with h2 | ⟨rfl, hlt⟩
        · exact popMin_key_le heap item rest hpop b h2
        · exact keyLe_of_lt (pushed_key_gt lists HS item hitemok hlt)
      rw [ih hok2 (by
        rw [hrs]
        exact ⟨item.entry, List.getLast?_concat _,
          keyLe_of_lt hkitem, hstep2⟩)]
      rw [hrs, List.filter_append]
      have : beq item.entry.key k = false := by
        unfold beq
        have : item.entry.key ≠ k := by
          intro hc
          rw [hc] at hkitem
          unfold keyLt at hkitem
          rw [bcmp_refl] at hkitem
          cases hkitem
        simp [this, bcmp_eq_iff]
      simp [this]

theorem heapStep_key_ge (lists : List (List Entry))
    (HS : ∀ l ∈ lists, SortedE l) (heap : List HeapItem) (item : HeapItem)
    (rest : List HeapItem) (hpop : popMin heap = some (item, rest))
    (hitemok : ItemOk lists item) :
    ∀ b ∈ heapStep lists item rest, keyLe item.entry.key b.entry.key := by
  intro b hb
  rcases heapStep_mem lists item rest b hb with h2 | ⟨rfl, hlt⟩
  · exact popMin_key_le heap item rest hpop b h2
  · exact keyLe_of_lt (pushed_key_gt lists HS item hitemok hlt)

theorem remOf_head_le (lists : List (List Entry))
    (HS : ∀ l ∈ lists, SortedE l) (it : HeapItem) (hitok : ItemOk lists it)
    (e : Entry) (he : e ∈ remOf lists it) : keyLe it.entry.key e.key := by
  have hs := sorted_remOf lists HS it
  rw [remOf_eq_cons lists it hitok] at hs he
  exact sorted_head_le it.entry _ hs e he

/-- Loop-level "most recent write wins": while key `k` has not yet been
reached, if `ek` (a non-tombstone with key `k`) is the `k`-entry of the
highest-index source list still holding `k`, the `k`-filtered output of
the loop is exactly `[ek]`. -/
theorem mergeLoop_winner (lists : List (List Entry))
    (HS : ∀ l ∈ lists, SortedE l) (k : Bytes) (ek : Entry)
    (hekk : ek.key = k) (hektomb : ek.tombstone = false) :
    ∀ heap result, HeapOk lists heap →
    result.filter (fun e => beq e.key k) = [] →
    (∀ lk, result.getLast? = some lk → keyLt lk.key k) →
    (∃ it0, it0 ∈ heap ∧ ek ∈ remOf lists it0 ∧
      (∀ it ∈ heap, (∃ e ∈ remOf lists it, e.key = k) →
        it.listIndex ≤ it0.listIndex)) →
    (mergeLoop lists heap result).filter (fun e => beq e.key k) = [ek] := by
  intro heap result
  induction heap, result using mergeLoop.induct lists with
  | case1 heap result hpop =>
    intro _ _ _ hwin
    obtain ⟨it0, hit0, _, _⟩ := hwin
    rw [(popMin_none_iff heap).mp hpop] at hit0
    cases hit0
  | case2 heap result item rest hpop ih =>
    intro hok hfilter hlastlt hwin
    obtain ⟨it0, hit0, hek0, hmax⟩ := hwin
    rw [mergeLoop_eq_some lists heap result item rest hpop]
    have hok2 := heapStep_ok lists heap item rest hpop hok
    have hitem := popMin_mem heap item rest hpop
    have hitemok := hok.1 item hitem
    have hit0ok := hok.1 it0 hit0
    have hperm := popMin_perm heap item rest hpop
    have hit0cons : it0 ∈ item :: rest := hperm.mem_iff.mp hit0
    have hit0le : keyLe it0.entry.key k := by
      have := remOf_head_le lists HS it0 hit0ok ek hek0
      rwa [hekk] at this
    cases hc : bcmp item.entry.key k with
    | lt =>
      obtain ⟨it0', hit0', hek0', hsameli⟩ :
          ∃ it0', it0' ∈ heapStep lists item rest ∧ ek ∈ remOf lists it0' ∧
            it0'.listIndex = it0.listIndex := by
        rcases List.mem_cons.mp hit0cons with heq0 | hin
        · subst heq0
          have hekne : ek ≠ it0.entry := by
            intro hceq
            rw [hceq] at hekk
            rw [hekk] at hc
            rw [bcmp_refl] at hc
            cases hc
          rw [remOf_eq_cons lists it0 hit0ok] at hek0
          have hektail : ek ∈ (listsGet lists it0.listIndex).drop
              (it0.entryIndex + 1) := by
            rcases List.mem_cons.mp hek0 with h2 | h2
            · exact absurd h2 hekne
            · exact h2
          have hlt2 := mem_drop_succ_lt _ _ _ hektail
          refine ⟨⟨(listsGet lists it0.listIndex).getD (it0.entryIndex + 1)
            default, it0.listIndex, it0.entryIndex + 1⟩, ?_, hektail, rfl⟩
          unfold heapStep
          rw [if_pos hlt2]
          exact List.mem_cons_self _ _
        · exact ⟨it0, mem_heapStep_of_mem_rest lists item rest it0 hin,
            hek0, rfl⟩
      have hmax' : ∀ it ∈ heapStep lists item rest,
          (∃ e ∈ remOf lists it, e.key = k) →
          it.listIndex ≤ it0'.listIndex := by
        intro it hit hkey
        rw [hsameli]
        rcases heapStep_mem lists item rest it hit with h2 | ⟨heq2, _⟩
        · exact hmax it (popMin_rest_subset heap item rest hpop it h2) hkey
        · subst heq2
          obtain ⟨e, he, hekey⟩ := hkey
          apply hmax item hitem
          refine ⟨e, ?_, hekey⟩
          unfold remOf at he ⊢
          exact mem_drop_succ_mem_drop _ _ _ he
      have hbeqf : beq item.entry.key k = false := by
        unfold beq
        simp [hc]
      rcases resultStep_cases result item with hrs | ⟨hrs, _, _⟩
      · exact ih hok2 (by rw [hrs]; exact hfilter)
          (by rw [hrs]; exact hlastlt) ⟨it0', hit0', hek0', hmax'⟩
      · refine ih hok2 ?_ ?_ ⟨it0', hit0', hek0', hmax'⟩
        · rw [hrs, List.filter_append, hfilter]
          simp [hbeqf]
        · rw [hrs]
          intro lk hlk
          rw [List.getLast?_concat] at hlk
          injection hlk with h2
          subst h2
          exact hc
    | eq =>
      have hkeq : item.entry.key = k := (bcmp_eq_iff _ _).mp hc
      have hitemholder : ∃ e ∈ remOf lists item, e.key = k :=
        ⟨item.entry, by
          rw [remOf_eq_cons lists item hitemok]
          exact List.mem_cons_self _ _, hkeq⟩
      have hli : item.listIndex ≤ it0.listIndex := hmax item hitem hitemholder
      have hiteq : it0 = item := by
        rcases List.mem_cons.mp hit0cons with h2 | h2
        · exact h2
        · exfalso
          have hless := popMin_min heap item rest hpop it0 h2
          rw [mergeLess_false_iff] at hless
          rcases hless with h3 | ⟨h3, h4⟩
          · have h5 : keyLt item.entry.key it0.entry.key :=
              (bcmp_gt_iff_lt _ _).mp h3
            have h6 : keyLt item.entry.key item.entry.key :=
              keyLt_of_lt_of_le h5 (by rw [hkeq]; exact hit0le)
            unfold keyLt at h6
            rw [bcmp_refl] at h6
            cases h6
          · have hdist2 : (item :: rest).Pairwise
                (fun a b => a.listIndex ≠ b.listIndex) :=
              (hperm.pairwise_iff (fun h => h.symm)).mp hok.2
            exact (List.pairwise_cons.mp hdist2).1 it0 h2 (by omega)
      subst hiteq
      have hekeq : ek = it0.entry := by
        rw [remOf_eq_cons lists it0 hit0ok] at hek0
        rcases List.mem_cons.mp hek0 with h2 | h2
        · exact h2
        · exfalso
          have hsrem := sorted_remOf lists HS it0
          rw [remOf_eq_cons lists it0 hit0ok] at hsrem
          have h3 := (List.pairwise_cons.mp hsrem).1 ek h2
          rw [hekk, hkeq] at h3
          rw [bcmp_refl] at h3
          cases h3
      have hrs : resultStep result it0 = result ++ [it0.entry] := by
        unfold resultStep
        have ht : it0.entry.tombstone = false := by
          rw [← hekeq]
          exact hektomb
        rw [ht]
        cases hl : result.getLast? with
        | none => simp
        | some lk =>
          have hltk := hlastlt lk hl
          have hne2 : lk.key ≠ it0.entry.key := by
            intro hcx
            rw [hcx, hkeq] at hltk
            unfold keyLt at hltk
            rw [bcmp_refl] at hltk
            cases hltk
          have hbeq2 : beq lk.key it0.entry.key = false := by
            unfold beq
            simp [bcmp_eq_iff, hne2]
          simp [hbeq2]
      rw [hrs]
      rw [mergeLoop_k_frozen lists HS k (heapStep lists it0 rest)
        (result ++ [it0.entry]) hok2
        ⟨it0.entry, List.getLast?_concat _, by
          unfold keyLe
          rw [hkeq, bcmp_refl]
          simp, heapStep_key_ge lists HS heap it0 rest hpop hitemok⟩]
      rw [List.filter_append, hfilter]
      have hbeqt : beq it0.entry.key k = true := by
        unfold beq
        simp [hkeq, bcmp_refl]
      simp [hbeqt, hekeq]
    | gt =>
      exfalso
      have hklt : keyLt k item.entry.key := (bcmp_gt_iff_lt _ _).mp hc
      rcases List.mem_cons.mp hit0cons with h2 | h2
      · subst h2
        have h3 : keyLt it0.entry.key it0.entry.key :=
          keyLt_of_le_of_lt hit0le hklt
        unfold keyLt at h3
        rw [bcmp_refl] at h3
        cases h3
      · have hless := popMin_min heap item rest hpop it0 h2
        rw [mergeLess_false_iff] at hless
        have h4 : keyLt k it0.entry.key := by
          rcases hless with h3 | ⟨h3, _⟩
          · exact keyLt_trans hklt ((bcmp_gt_iff_lt _ _).mp h3)
          · rw [(bcmp_eq_iff _ _).mp h3]
            exact hklt
        have h5 : keyLt k k := keyLt_of_lt_of_le h4 hit0le
        unfold keyLt at h5
        rw [bcmp_refl] at h5
        cases h5

theorem seedHeap_mem (lists : List (List Entry)) (x : HeapItem) :
    x ∈ seedHeap lists ↔
    ∃ i, i < lists.length ∧ 0 < (listsGet lists i).length ∧
      x = ⟨(listsGet lists i).getD 0 default, i, 0⟩ := by
  have step : ∀ (is : List Nat) (acc : List HeapItem),
      x ∈ is.foldl (fun h i =>
        if 0 < (listsGet lists i).length
        then ⟨(listsGet lists i).getD 0 default, i, 0⟩ :: h
        else h) acc ↔
      x ∈ acc ∨ ∃ i ∈ is, 0 < (listsGet lists i).length ∧
        x = ⟨(listsGet lists i).getD 0 default, i, 0⟩ := by
    intro is
    induction is with
    | nil => intro acc; simp
    | cons j js ih =>
      intro acc
      simp only [List.foldl_cons]
      by_cases hc : 0 < (listsGet lists j).length
      · rw [if_pos hc, ih]
        constructor
        · rintro (hx | ⟨i, hi, hc2, rfl⟩)
          · rcases List.mem_cons.mp hx with rfl | hx2
            · exact Or.inr ⟨j, by simp, hc, rfl⟩
            · exact Or.inl hx2
          · exact Or.inr ⟨i, by simp [hi], hc2, rfl⟩
        · rintro (hx | ⟨i, hi, hc2, rfl⟩)
          · exact Or.inl (List.mem_cons_of_mem _ hx)
          · rcases List.mem_cons.mp hi with rfl | hi2
            · exact Or.inl (List.mem_cons_self _ _)
            · exact Or.inr ⟨i, hi2, hc2, rfl⟩
      · rw [if_neg hc, ih]
        constructor
        · rintro (hx | ⟨i, hi, hc2, rfl⟩)
          · exact Or.inl hx
          · exact Or.inr ⟨i, by simp [hi], hc2, rfl⟩
        · rintro (hx | ⟨i, hi, hc2, rfl⟩)
          · exact Or.inl hx
          · rcases List.mem_cons.mp hi with rfl | hi2
            · exact absurd hc2 hc
            · exact Or.inr ⟨i, hi2, hc2, rfl⟩
  unfold seedHeap
  rw [step]
  simp [List.mem_range]

theorem seedHeap_ok (lists : List (List Entry)) :
    HeapOk lists (seedHeap lists) := by
  constructor
  · intro it hit
    obtain ⟨i, hi, hc, rfl⟩ := (seedHeap_mem lists it).mp hit
    exact ⟨hi, hc, rfl⟩
  · have step : ∀ (is : List Nat) (acc : List HeapItem),
        is.Nodup →
        (∀ x ∈ acc, ∀ i ∈ is, x.listIndex ≠ i) →
        acc.Pairwise (fun a b => a.listIndex ≠ b.listIndex) →
        (is.foldl (fun h i =>
          if 0 < (listsGet lists i).length
          then ⟨(listsGet lists i).getD 0 default, i, 0⟩ :: h
          else h) acc).Pairwise (fun a b => a.listIndex ≠ b.listIndex) := by
      intro is
      induction is with
      | nil => intro acc _ _ hp; exact hp
      | cons j js ih =>
        intro acc hnd hdisj hp
        simp only [List.foldl_cons]
        have hnd2 := List.nodup_cons.mp hnd
        by_cases hc : 0 < (listsGet lists j).length
        · rw [if_pos hc]
          apply ih _ hnd2.2
          · intro x hx i hi
            rcases List.mem_cons.mp hx with rfl | hx2
            · show j ≠ i
              intro hceq
              rw [hceq] at hnd2
              exact hnd2.1 hi
            · exact hdisj x hx2 i (List.mem_cons_of_mem _ hi)
          · rw [List.pairwise_cons]
            refine ⟨?_, hp⟩
            intro b hb
            have := hdisj b hb j (List.mem_cons_self _ _)
            exact fun hceq => this hceq.symm
        · rw [if_neg hc]
          exact ih _ hnd2.2
            (fun x hx i hi => hdisj x hx i (List.mem_cons_of_mem _ hi)) hp
    unfold seedHeap
    exact step _ [] (List.nodup_range _) (by intro x hx; cases hx)
      List.Pairwise.nil

/-- C2: for input lists each sorted strictly ascending by key, `Merge`
returns a strictly sorted, tombstone-free list; and whenever the
highest-index list holding a key `k` holds it as a non-tombstone entry
`ek`, the output's entries with key `k` are exactly `[ek]` (most recent
write wins).  The claim's example is included. -/
theorem C2_merge_sorted_most_recent_wins (lists : List (List Entry))
    (HS : ∀ l ∈ lists, SortedE l) :
    (∃ out, Merge lists = Except.ok out ∧
      SortedE out ∧
      (∀ e ∈ out, e.tombstone = false) ∧
      (∀ (k : Bytes) (j : Nat) (ek : Entry),
        j < lists.length →
        ek ∈ listsGet lists j → ek.key = k → ek.tombstone = false →
        (∀ i, i < lists.length →
          (∃ e ∈ listsGet lists i, e.key = k) → i ≤ j) →
        out.filter (fun e => beq e.key k) = [ek])) ∧
    Merge [[⟨[97], [1], false⟩], [⟨[97], [2], false⟩]] =
      Except.ok [⟨[97], [2], false⟩] := by
  constructor
  · refine ⟨mergeLoop lists (seedHeap lists) [], rfl, ?_, ?_, ?_⟩
    · exact (mergeLoop_sorted_core lists HS (seedHeap lists) []
        (seedHeap_ok lists) List.Pairwise.nil (by intro x hx; cases hx)).1
    · intro e he
      rcases (mergeLoop_sorted_core lists HS (seedHeap lists) []
        (seedHeap_ok lists) List.Pairwise.nil
        (by intro x hx; cases hx)).2 e he with h2 | h2
      · cases h2
      · exact h2
    · intro k j ek hj hek hekk hektomb hmaxj
      have hjn : 0 < (listsGet lists j).length := by
        cases hg : listsGet lists j with
        | nil => rw [hg] at hek; cases hek
        | cons a l => simp
      apply mergeLoop_winner lists HS k ek hekk hektomb (seedHeap lists) []
        (seedHeap_ok lists) rfl (by intro lk hlk; cases hlk)
      refine ⟨⟨(listsGet lists j).getD 0 default, j, 0⟩,
        (seedHeap_mem lists _).mpr ⟨j, hj, hjn, rfl⟩, ?_, ?_⟩
      · show ek ∈ (listsGet lists j).drop 0
        simpa using hek
      · intro it hit hkey
        obtain ⟨i, hi, _, rfl⟩ := (seedHeap_mem lists it).mp hit
        apply hmaxj i hi
        obtain ⟨e, he, hekey⟩ := hkey
        refine ⟨e, ?_, hekey⟩
        unfold remOf at he
        simpa using he
  · simp [Merge, seedHeap, listsGet]
    rw [mergeLoop]
    simp [popMin, mergeLess, bcmp, listsGet, heapStep, resultStep, beq]
    rw [mergeLoop]
    simp [popMin, mergeLess, bcmp, listsGet, heapStep, resultStep, beq]
    rw [mergeLoop]
    simp [popMin]

theorem C2_witness :
    Merge [[⟨[97], [1], false⟩], [⟨[97], [2], false⟩]] =
      Except.ok [⟨[97], [2], false⟩] :=
  (C2_merge_sorted_most_recent_wins
    [[⟨[97], [1], false⟩], [⟨[97], [2], false⟩]] (by
      intro l hl
      simp at hl
      rcases hl with rfl | rfl <;> exact List.pairwise_singleton _ _)).2

/-! ## Write-ahead log record codec (wal.go)

`WAL.Write` serializes each entry as
`keyLen:u32, valueLen:u32, key, value, tombstone:u8`, all big-endian,
into a buffer that is flushed to the file; the final file content is
the concatenation of the records, which is modelled directly (the 5 MiB
buffered flushing changes only the syscall batching, not the bytes).
`Read` decodes the whole file back.  The file content is a `List Nat`
of byte values; a nil entry in a batch is `none`. -/

/-- Big-endian bytes of `uint32(n)` (Go truncates to 32 bits). -/
def u32be (n : Nat) : List Nat :=
  [n / 2 ^ 24 % 256, n / 2 ^ 16 % 256, n / 2 ^ 8 % 256, n % 256]

/-- Value of 4 big-endian bytes (what `binary.Read` into `uint32` does). -/
def u32of (bs : List Nat) : Nat :=
  bs.foldl (fun acc b => acc * 256 + b) 0

theorem u32be_length (n : Nat) : (u32be n).length = 4 := rfl

theorem u32of_u32be (n : Nat) (h : n < 2 ^ 32) : u32of (u32be n) = n := by
  simp only [u32be, u32of, List.foldl_cons, List.foldl_nil]
  omega

/-- The serialized record of one entry (the five `binary.Write` calls
of `WAL.Write`; a `bool` is written as one byte, 1 or 0). -/
def walEncodeEntry (e : Entry) : List Nat :=
  u32be e.key.length ++ u32be e.value.length ++ e.key ++ e.value ++
    [if e.tombstone then 1 else 0]

/-- The byte content appended to the log for a batch. -/
def walEncode (entries : List Entry) : List Nat :=
  (entries.map walEncodeEntry).flatten

/-- The validation loop of `WAL.Write`: the first nil entry, empty key
or empty value fails the whole batch. -/
def walValidate : List (Option Entry) → Nat → Option String
  | [], _ => none
  | none :: _, i => some ("entry at index " ++ toString i ++ " is nil")
  | some e :: rest, i =>
    if e.key.length = 0 then
      some ("entry at index " ++ toString i ++ " has empty Key")
    else if e.value.length = 0 then
      some ("entry at index " ++ toString i ++ " has empty Value")
    else walValidate rest (i + 1)

/-- `WAL.Write` (wal.go), with the file content threaded through: the
result is (file content after the call, error if any).  The source
validates the whole batch before the first buffer or file write, so a
validation error returns with the file untouched. -/
def walWrite (entries : List (Option Entry)) (file : List Nat) :
    List Nat × Option String :=
  match walValidate entries 0 with
  | some err => (file, some err)
  | none =>
    (file ++ walEncode (entries.map (fun e => e.getD default)), none)

/-- The decode loop of `Read` (wal.go).  Per iteration it reads two
`u32` lengths (8 bytes), then key, value and one tombstone byte.  Go
checks `errors.Is(errors.Join(e1, e2), io.EOF)` on the two length
reads: the joined error contains `io.EOF` exactly when the second read
starts at end-of-stream, i.e. when at most 4 bytes remain — that is a
clean stop; 5 to 7 remaining bytes are a malformed-trailing-data
error, as is any short read inside the record body. -/
def walDecode (stream : List Nat) : Except String (List Entry) :=
  if h0 : stream.length = 0 then Except.ok []
  else if h8 : 8 ≤ stream.length then
    let keyLen := u32of (stream.take 4)
    let valueLen := u32of ((stream.drop 4).take 4)
    let rest := stream.drop 8
    if hkv : keyLen + valueLen + 1 ≤ rest.length then
      match walDecode (rest.drop (keyLen + valueLen + 1)) with
      | Except.ok entries =>
        Except.ok (⟨rest.take keyLen, (rest.drop keyLen).take valueLen,
          rest.getD (keyLen + valueLen) 0 ≠ 0⟩ :: entries)
      | Except.error e => Except.error e
    else Except.error "unexpected EOF reading record"
  else if stream.length ≤ 4 then Except.ok []
  else Except.error "unexpected EOF reading record header"
termination_by stream.length
decreasing_by
  simp only [List.length_drop]
  omega

/-- `Read` (wal.go): seek to the start, read the whole file, decode. -/
def walRead (file : List Nat) : Except String (List Entry) :=
  walDecode file

theorem take4_u32be (n : Nat) (t : List Nat) :
    (u32be n ++ t).take 4 = u32be n := by
  have := List.take_left (u32be n) t
  rwa [u32be_length] at this

theorem drop4_u32be (n : Nat) (t : List Nat) :
    (u32be n ++ t).drop 4 = t := by
  have := List.drop_left (u32be n) t
  rwa [u32be_length] at this

/-- Decoding one encoded record off the front of a stream yields the
entry back and continues with the remainder. -/
theorem walDecode_cons (e : Entry) (rest : List Nat)
    (hk : e.key.length < 2 ^ 32) (hv : e.value.length < 2 ^ 32) :
    walDecode (walEncodeEntry e ++ rest) =
      Except.map (fun es => e :: es) (walDecode rest) := by
  have hS : walEncodeEntry e ++ rest =
      u32be e.key.length ++ (u32be e.value.length ++ (e.key ++ (e.value ++
        ((if e.tombstone then 1 else 0) :: rest)))) := by
    simp [walEncodeEntry, List.append_assoc]
  have hlen : (walEncodeEntry e ++ rest).length =
      9 + e.key.length + e.value.length + rest.length := by
    rw [hS]
    simp [u32be]
    omega
  have h1 : (walEncodeEntry e ++ rest).take 4 = u32be e.key.length := by
    rw [hS]
    exact take4_u32be _ _
  have h2 : ((walEncodeEntry e ++ rest).drop 4).take 4 =
      u32be e.value.length := by
    rw [hS, drop4_u32be]
    exact take4_u32be _ _
  have h3 : (walEncodeEntry e ++ rest).drop 8 =
      e.key ++ (e.value ++ ((if e.tombstone then 1 else 0) :: rest)) := by
    rw [hS]
    rw [show (8 : Nat) = 4 + 4 by rfl, ← List.drop_drop]
    rw [drop4_u32be, drop4_u32be]
  have h4 : (e.key ++ (e.value ++ ((if e.tombstone then 1 else 0) ::
      rest))).take e.key.length = e.key := List.take_left _ _
  have h5 : (e.key ++ (e.value ++ ((if e.tombstone then 1 else 0) ::
      rest))).drop e.key.length = e.value ++ ((if e.tombstone then 1
      else 0) :: rest) := List.drop_left _ _
  have h6 : (e.key ++ (e.value ++ ((if e.tombstone then 1 else 0) ::
      rest))).getD (e.key.length + e.value.length) 0 =
      (if e.tombstone then 1 else 0) := by
    rw [List.getD_eq_getElem?_getD]
    have hd : (e.key ++ (e.value ++ ((if e.tombstone then 1 else 0) ::
        rest))).drop (e.key.length + e.value.length) =
        (if e.tombstone then 1 else 0) :: rest := by
      rw [show e.key.length + e.value.length =
        e.key.length + (e.value.length + 0) by omega]
      rw [List.drop_append]
      rw [show e.value.length + 0 = e.value.length by omega]
      exact List.drop_left _ _
    have h8 := List.getElem?_drop (e.key ++ (e.value ++ ((if e.tombstone
      then 1 else 0) :: rest))) (e.key.length + e.value.length) 0
    rw [hd, Nat.add_zero] at h8
    rw [← h8]
    simp
  have h7 : (e.key ++ (e.value ++ ((if e.tombstone then 1 else 0) ::
      rest))).drop (e.key.length + e.value.length + 1) = rest := by
    rw [show e.key.length + e.value.length + 1 =
      e.key.length + (e.value.length + 1) by omega]
    rw [List.drop_append]
    rw [show e.value.length + 1 = e.value.length + 1 by rfl]
    rw [← List.drop_drop]
    rw [List.drop_left]
    rfl
  rw [walDecode]
  rw [dif_neg (by rw [hlen]; omega)]
  rw [dif_pos (by rw [hlen]; omega)]
  simp only [h1, h2, h3, u32of_u32be _ hk, u32of_u32be _ hv]
  rw [dif_pos (by simp; omega)]
  simp only [h4, h5, h6, h7, List.take_left]
  have hb : (decide ((if e.tombstone then (1 : Nat) else 0) ≠ 0)) =
      e.tombstone := by
    cases ht : e.tombstone <;> simp [ht]
  rw [hb]
  cases hw : walDecode rest <;> simp [Except.map]

theorem walValidate_none (entries : List (Option Entry))
    (h : ∀ o ∈ entries, ∃ e, o = some e ∧ e.key ≠ [] ∧ e.value ≠ []) :
    ∀ i, walValidate entries i = none := by
  induction entries with
  | nil => intro i; rfl
  | cons o rest ih =>
    intro i
    obtain ⟨e, rfl, hk, hv⟩ := h o (List.mem_cons_self _ _)
    unfold walValidate
    rw [if_neg (by rw [List.length_eq_zero]; exact hk),
      if_neg (by rw [List.length_eq_zero]; exact hv)]
    exact ih (fun o ho => h o (List.mem_cons_of_mem _ ho)) (i + 1)

theorem walValidate_some (entries : List (Option Entry)) :
    (∃ o ∈ entries, o = none ∨ ∃ e, o = some e ∧
      (e.key = [] ∨ e.value = [])) →
    ∀ i, ∃ err, walValidate entries i = some err := by
  induction entries with
  | nil =>
    intro h
    obtain ⟨o, ho, _⟩ := h
    cases ho
  | cons o rest ih =>
    intro h i
    cases o with
    | none => exact ⟨_, rfl⟩
    | some e =>
      by_cases hk : e.key.length = 0
      · unfold walValidate
        rw [if_pos hk]
        exact ⟨_, rfl⟩
      · by_cases hv : e.value.length = 0
        · unfold walValidate
          rw [if_neg hk, if_pos hv]
          exact ⟨_, rfl⟩
        · unfold walValidate
          rw [if_neg hk, if_neg hv]
          apply ih ?_ (i + 1)
          obtain ⟨o2, ho2, hbad⟩ := h
          rcases List.mem_cons.mp ho2 with rfl | ho3
          · exfalso
            rcases hbad with hbn | ⟨e2, he2, hbad2⟩
            · cases hbn
            · injection he2 with he3
              subst he3
              rcases hbad2 with h4 | h4
              · rw [h4] at hk
                simp at hk
              · rw [h4] at hv
                simp at hv
          · exact ⟨o2, ho3, hbad⟩

theorem walDecode_walEncode (entries : List Entry)
    (h : ∀ e ∈ entries, e.key.length < 2 ^ 32 ∧ e.value.length < 2 ^ 32) :
    walDecode (walEncode entries) = Except.ok entries := by
  induction entries with
  | nil =>
    rw [show walEncode [] = [] from rfl, walDecode]
    simp
  | cons e rest ih =>
    have henc : walEncode (e :: rest) = walEncodeEntry e ++ walEncode rest := by
      simp [walEncode]
    rw [henc, walDecode_cons e _ (h e (List.mem_cons_self _ _)).1
      (h e (List.mem_cons_self _ _)).2]
    rw [ih (fun x hx => h x (List.mem_cons_of_mem _ hx))]
    rfl

/-- C3: round-trip through the WAL: a batch of valid entries (non-nil,
non-empty key and value, lengths within `u32` as the record layout
prescribes) written to a fresh log is read back exactly, in order, with
key, value and tombstone preserved; reading an empty log is not an
error. -/
theorem C3_wal_roundtrip (entries : List Entry)
    (hvalid : ∀ e ∈ entries, e.key ≠ [] ∧ e.value ≠ [] ∧
      e.key.length < 2 ^ 32 ∧ e.value.length < 2 ^ 32) :
    (walWrite (entries.map some) []).2 = none ∧
    walRead (walWrite (entries.map some) []).1 = Except.ok entries ∧
    walRead [] = Except.ok [] := by
  have hval : walValidate (entries.map some) 0 = none := by
    apply walValidate_none
    intro o ho
    obtain ⟨e, he, rfl⟩ := List.mem_map.mp ho
    exact ⟨e, rfl, (hvalid e he).1, (hvalid e he).2.1⟩
  have hfile : (walWrite (entries.map some) []).1 = walEncode entries := by
    unfold walWrite
    rw [hval]
    have hmm : List.map ((fun (e : Option Entry) => e.getD default) ∘ some)
        entries = entries := by
      rw [show ((fun (e : Option Entry) => e.getD default) ∘ some) =
        (fun (e : Entry) => e) from rfl]
      exact List.map_id entries
    simp [hmm]
  refine ⟨?_, ?_, ?_⟩
  · unfold walWrite
    rw [hval]
  · rw [hfile]
    exact walDecode_walEncode entries
      (fun e he => ⟨(hvalid e he).2.2.1, (hvalid e he).2.2.2⟩)
  · rw [walRead, walDecode]
    simp

theorem C3_witness :
    (walWrite (([⟨[1], [2], false⟩, ⟨[3], [4], true⟩] :
      List Entry).map some) []).2 = none ∧
    walRead (walWrite (([⟨[1], [2], false⟩, ⟨[3], [4], true⟩] :
      List Entry).map some) []).1 =
      Except.ok [⟨[1], [2], false⟩, ⟨[3], [4], true⟩] ∧
    walRead [] = Except.ok ([] : List Entry) :=
  C3_wal_roundtrip [⟨[1], [2], false⟩, ⟨[3], [4], true⟩] (by decide)

/-- C4: `WAL.Write` validates the whole batch before writing anything:
a batch with a nil entry, an empty key or an empty value returns an
error with the file untouched; a batch of valid entries never fails
validation. -/
theorem C4_wal_write_validates_batch (entries : List (Option Entry))
    (file : List Nat) :
    ((∃ o ∈ entries, o = none ∨ ∃ e, o = some e ∧
        (e.key = [] ∨ e.value = [])) →
      (walWrite entries file).1 = file ∧
      (walWrite entries file).2.isSome = true) ∧
    ((∀ o ∈ entries, ∃ e, o = some e ∧ e.key ≠ [] ∧ e.value ≠ []) →
      (walWrite entries file).2 = none) := by
  constructor
  · intro hbad
    obtain ⟨err, herr⟩ := walValidate_some entries hbad 0
    unfold walWrite
    rw [herr]
    exact ⟨rfl, rfl⟩
  · intro hgood
    unfold walWrite
    rw [walValidate_none entries hgood 0]

theorem C4_witness :
    ((walWrite [some ⟨[1], [2], false⟩, none] [7]).1 = [7] ∧
     (walWrite [some ⟨[1], [2], false⟩, none] [7]).2.isSome = true) ∧
    (walWrite [some ⟨[1], [2], false⟩] [7]).2 = none :=
  ⟨(C4_wal_write_validates_batch [some ⟨[1], [2], false⟩, none] [7]).1
      ⟨none, by simp, Or.inl rfl⟩,
   (C4_wal_write_validates_batch [some ⟨[1], [2], false⟩] [7]).2 (by
      intro o ho
      simp at ho
      subst ho
      exact ⟨⟨[1], [2], false⟩, rfl, by simp, by simp⟩)⟩

/-! ## Block formats (sstable package: sstable.go, index.go, meta.go,
footer.go) -/

/-- Big-endian bytes of a `uint64`. -/
def u64be (n : Nat) : List Nat :=
  [n / 2 ^ 56 % 256, n / 2 ^ 48 % 256, n / 2 ^ 40 % 256, n / 2 ^ 32 % 256,
   n / 2 ^ 24 % 256, n / 2 ^ 16 % 256, n / 2 ^ 8 % 256, n % 256]

/-- Value of 8 big-endian bytes. -/
def u64of (bs : List Nat) : Nat :=
  bs.foldl (fun acc b => acc * 256 + b) 0

theorem u64be_length (n : Nat) : (u64be n).length = 8 := rfl

theorem u64of_u64be (n : Nat) (h : n < 2 ^ 64) : u64of (u64be n) = n := by
  simp only [u64be, u64of, List.foldl_cons, List.foldl_nil]
  omega

/-- Big-endian bytes of an `int64` (two's complement). -/
def i64be (n : Int) : List Nat := u64be ((n % 2 ^ 64).toNat)

/-- `int64` read from 8 big-endian bytes. -/
def i64of (bs : List Nat) : Int :=
  if u64of bs < 2 ^ 63 then (u64of bs : Int) else (u64of bs : Int) - 2 ^ 64

/-- Big-endian bytes of `int32(n)` (Go truncates to 32 bits). -/
def i32be (n : Int) : List Nat := u32be ((n % 2 ^ 32).toNat)

/-- `int32` read from 4 big-endian bytes, then widened by `int(...)`
(sign extension). -/
def i32of (bs : List Nat) : Int :=
  if u32of bs < 2 ^ 31 then (u32of bs : Int) else (u32of bs : Int) - 2 ^ 32

theorem i64of_i64be (n : Int) (hlo : -2 ^ 63 ≤ n) (hhi : n < 2 ^ 63) :
    i64of (i64be n) = n := by
  unfold i64be i64of
  rw [u64of_u64be _ (by omega)]
  omega

theorem i32of_i32be (n : Int) (hlo : -2 ^ 31 ≤ n) (hhi : n < 2 ^ 31) :
    i32of (i32be n) = n := by
  unfold i32be i32of
  rw [u32of_u32be _ (by omega)]
  omega

/-- `BlockHandle` (a byte range in the assembled SSTable); fields are
`uint64`. -/
structure BlockHandle where
  offset : Nat
  length : Nat
deriving DecidableEq, Repr, Inhabited

/-- `IndexEntry` (index.go / sstable.go). -/
structure IndexEntry where
  startKey : Bytes
  endKey : Bytes
  block : BlockHandle
deriving DecidableEq, Repr, Inhabited

/-- `IndexBlock`: the source's `block` receiver field is never
decoded/encoded, only `entries`. -/
structure IndexBlock where
  entries : List IndexEntry
deriving DecidableEq, Repr, Inhabited

/-- `DataBlock` (sstable.go); the claim's well-formedness (no nil
entries) is built into the model. -/
structure DataBlock where
  entries : List Entry
deriving DecidableEq, Repr, Inhabited

/-- `MetaBlock` (meta.go): `createdAt int64`, `level int`. -/
structure MetaBlock where
  createdAt : Int
  level : Int
deriving DecidableEq, Repr, Inhabited

/-- `Footer` (footer.go). -/
structure Footer where
  meta : BlockHandle
  index : BlockHandle
deriving DecidableEq, Repr, Inhabited

/-- `DataBlock.Encode` (sstable.go): each entry serialized exactly as a
WAL record — the loop body writes the same five fields big-endian. -/
def DataBlock.encode (db : DataBlock) : List Nat := walEncode db.entries

/-- `DataBlock.Decode` (sstable.go): the decode loop is the same record
stream reader as `Read` in wal.go; a fresh receiver accumulates the
decoded entries. -/
def DataBlock.decode (data : List Nat) : Except String DataBlock :=
  Except.map DataBlock.mk (walDecode data)

/-- One serialized index entry (`IndexBlock.Encode` loop body). -/
def indexEncodeEntry (ie : IndexEntry) : List Nat :=
  u32be ie.startKey.length ++ u32be ie.endKey.length ++ ie.startKey ++
    ie.endKey ++ u64be ie.block.offset ++ u64be ie.block.length

/-- `IndexBlock.Encode` (index.go). -/
def IndexBlock.encode (ib : IndexBlock) : List Nat :=
  (ib.entries.map indexEncodeEntry).flatten

/-- `IndexBlock.Decode` (index.go): same loop shape as the WAL reader:
two `u32` length reads with the joined-EOF check (clean stop exactly
when at most 4 bytes remain), then startKey, endKey and two `u64`
handle fields; any short read there is an error. -/
def indexDecodeEntries (stream : List Nat) :
    Except String (List IndexEntry) :=
  if h0 : stream.length = 0 then Except.ok []
  else if h8 : 8 ≤ stream.length then
    let startKeyLen := u32of (stream.take 4)
    let endKeyLen := u32of ((stream.drop 4).take 4)
    let rest := stream.drop 8
    if hkv : startKeyLen + endKeyLen + 16 ≤ rest.length then
      match indexDecodeEntries (rest.drop (startKeyLen + endKeyLen + 16)) with
      | Except.ok entries =>
        Except.ok (⟨rest.take startKeyLen,
          (rest.drop startKeyLen).take endKeyLen,
          ⟨u64of ((rest.drop (startKeyLen + endKeyLen)).take 8),
           u64of ((rest.drop (startKeyLen + endKeyLen + 8)).take 8)⟩⟩ ::
          entries)
      | Except.error e => Except.error e
    else Except.error "unexpected EOF reading index entry"
  else if stream.length ≤ 4 then Except.ok []
  else Except.error "unexpected EOF reading index entry header"
termination_by stream.length
decreasing_by
  simp only [List.length_drop]
  omega

def IndexBlock.decode (data : List Nat) : Except String IndexBlock :=
  Except.map IndexBlock.mk (indexDecodeEntries data)

/-- `MetaBlock.Encode` (meta.go): `createdAt:i64` then `int32(level)`,
big-endian. -/
def MetaBlock.encode (mb : MetaBlock) : List Nat :=
  i64be mb.createdAt ++ i32be mb.level

/-- `MetaBlock.Decode` (meta.go): one `int64` and one `int32` read,
errors joined — fails iff fewer than 12 bytes; trailing data is
ignored. -/
def MetaBlock.decode (data : List Nat) : Except String MetaBlock :=
  if 12 ≤ data.length then
    Except.ok ⟨i64of (data.take 8), i32of ((data.drop 8).take 4)⟩
  else Except.error "unexpected EOF reading meta block"

/-- `Footer.Encode` (footer.go): four `uint64` fields, big-endian. -/
def Footer.encode (f : Footer) : List Nat :=
  u64be f.meta.offset ++ u64be f.meta.length ++ u64be f.index.offset ++
    u64be f.index.length

/-- `Footer.Decode` (footer.go): four `uint64` reads, errors joined —
fails iff fewer than 32 bytes; trailing data is ignored. -/
def Footer.decode (data : List Nat) : Except String Footer :=
  if 32 ≤ data.length then
    Except.ok ⟨⟨u64of (data.take 8), u64of ((data.drop 8).take 8)⟩,
      ⟨u64of ((data.drop 16).take 8), u64of ((data.drop 24).take 8)⟩⟩
  else Except.error "unexpected EOF reading footer"

theorem take8_u64be (n : Nat) (t : List Nat) :
    (u64be n ++ t).take 8 = u64be n := by
  have := List.take_left (u64be n) t
  rwa [u64be_length] at this

theorem drop8_u64be (n : Nat) (t : List Nat) :
    (u64be n ++ t).drop 8 = t := by
  have := List.drop_left (u64be n) t
  rwa [u64be_length] at this

theorem footer_roundtrip (f : Footer)
    (h1 : f.meta.offset < 2 ^ 64) (h2 : f.meta.length < 2 ^ 64)
    (h3 : f.index.offset < 2 ^ 64) (h4 : f.index.length < 2 ^ 64) :
    Footer.decode (Footer.encode f) = Except.ok f := by
  have hlen : (Footer.encode f).length = 32 := by
    simp [Footer.encode, u64be]
  unfold Footer.decode
  rw [if_pos (by omega)]
  have e1 : (Footer.encode f).take 8 = u64be f.meta.offset := by
    unfold Footer.encode
    rw [List.append_assoc, List.append_assoc]
    exact take8_u64be _ _
  have ed8 : (Footer.encode f).drop 8 =
      u64be f.meta.length ++ (u64be f.index.offset ++ u64be f.index.length) := by
    unfold Footer.encode
    rw [List.append_assoc, List.append_assoc]
    rw [drop8_u64be]
  have e2 : ((Footer.encode f).drop 8).take 8 = u64be f.meta.length := by
    rw [ed8]
    exact take8_u64be _ _
  have ed16 : (Footer.encode f).drop 16 =
      u64be f.index.offset ++ u64be f.index.length := by
    rw [show (16 : Nat) = 8 + 8 by rfl, ← List.drop_drop, ed8, drop8_u64be]
  have e3 : ((Footer.encode f).drop 16).take 8 = u64be f.index.offset := by
    rw [ed16]
    exact take8_u64be _ _
  have ed24 : (Footer.encode f).drop 24 = u64be f.index.length := by
    rw [show (24 : Nat) = 8 + 16 by rfl, ← List.drop_drop, ed8]
    rw [show (16 : Nat) = 8 + 8 by rfl, ← List.drop_drop, drop8_u64be,
      drop8_u64be]
  have e4 : ((Footer.encode f).drop 24).take 8 = u64be f.index.length := by
    rw [ed24]
    have := List.take_length (u64be f.index.length)
    rwa [u64be_length] at this
  rw [e1, e2, e3, e4, u64of_u64be _ h1, u64of_u64be _ h2,
    u64of_u64be _ h3, u64of_u64be _ h4]

theorem meta_roundtrip (mb : MetaBlock)
    (hc1 : -2 ^ 63 ≤ mb.createdAt) (hc2 : mb.createdAt < 2 ^ 63)
    (hl1 : -2 ^ 31 ≤ mb.level) (hl2 : mb.level < 2 ^ 31) :
    MetaBlock.decode (MetaBlock.encode mb) = Except.ok mb := by
  have hi64 : (i64be mb.createdAt).length = 8 := u64be_length _
  have hi32 : (i32be mb.level).length = 4 := rfl
  have hlen : (MetaBlock.encode mb).length = 12 := by
    simp [MetaBlock.encode, hi64, hi32]
  unfold MetaBlock.decode
  rw [if_pos (by omega)]
  have e1 : (MetaBlock.encode mb).take 8 = i64be mb.createdAt := by
    unfold MetaBlock.encode
    have := List.take_left (i64be mb.createdAt) (i32be mb.level)
    rwa [hi64] at this
  have ed8 : (MetaBlock.encode mb).drop 8 = i32be mb.level := by
    unfold MetaBlock.encode
    have := List.drop_left (i64be mb.createdAt) (i32be mb.level)
    rwa [hi64] at this
  have e2 : ((MetaBlock.encode mb).drop 8).take 4 = i32be mb.level := by
    rw [ed8]
    have := List.take_length (i32be mb.level)
    rwa [hi32] at this
  rw [e1, e2, i64of_i64be _ hc1 hc2, i32of_i32be _ hl1 hl2]

theorem indexDecode_cons (ie : IndexEntry) (rest : List Nat)
    (hs : ie.startKey.length < 2 ^ 32) (he : ie.endKey.length < 2 ^ 32)
    (ho : ie.block.offset < 2 ^ 64) (hl : ie.block.length < 2 ^ 64) :
    indexDecodeEntries (indexEncodeEntry ie ++ rest) =
      Except.map (fun es => ie :: es) (indexDecodeEntries rest) := by
  have hS : indexEncodeEntry ie ++ rest =
      u32be ie.startKey.length ++ (u32be ie.endKey.length ++
        (ie.startKey ++ (ie.endKey ++ (u64be ie.block.offset ++
          (u64be ie.block.length ++ rest))))) := by
    simp [indexEncodeEntry, List.append_assoc]
  have hlen : (indexEncodeEntry ie ++ rest).length =
      24 + ie.startKey.length + ie.endKey.length + rest.length := by
    rw [hS]
    simp [u32be, u64be]
    omega
  have h1 : (indexEncodeEntry ie ++ rest).take 4 =
      u32be ie.startKey.length := by
    rw [hS]
    exact take4_u32be _ _
  have h2 : ((indexEncodeEntry ie ++ rest).drop 4).take 4 =
      u32be ie.endKey.length := by
    rw [hS, drop4_u32be]
    exact take4_u32be _ _
  have h3 : (indexEncodeEntry ie ++ rest).drop 8 =
      ie.startKey ++ (ie.endKey ++ (u64be ie.block.offset ++
        (u64be ie.block.length ++ rest))) := by
    rw [hS, show (8 : Nat) = 4 + 4 by rfl, ← List.drop_drop,
      drop4_u32be, drop4_u32be]
  have h4 : (ie.startKey ++ (ie.endKey ++ (u64be ie.block.offset ++
      (u64be ie.block.length ++ rest)))).take ie.startKey.length =
      ie.startKey := List.take_left _ _
  have h5 : (ie.startKey ++ (ie.endKey ++ (u64be ie.block.offset ++
      (u64be ie.block.length ++ rest)))).drop ie.startKey.length =
      ie.endKey ++ (u64be ie.block.offset ++
        (u64be ie.block.length ++ rest)) := List.drop_left _ _
  have h5t : ((ie.startKey ++ (ie.endKey ++ (u64be ie.block.offset ++
      (u64be ie.block.length ++ rest)))).drop ie.startKey.length).take
      ie.endKey.length = ie.endKey := by
    rw [h5]
    exact List.take_left _ _
  have hdse : (ie.startKey ++ (ie.endKey ++ (u64be ie.block.offset ++
      (u64be ie.block.length ++ rest)))).drop
      (ie.startKey.length + ie.endKey.length) =
      u64be ie.block.offset ++ (u64be ie.block.length ++ rest) := by
    rw [List.drop_append]
    exact List.drop_left _ _
  have h6 : ((ie.startKey ++ (ie.endKey ++ (u64be ie.block.offset ++
      (u64be ie.block.length ++ rest)))).drop
      (ie.startKey.length + ie.endKey.length)).take 8 =
      u64be ie.block.offset := by
    rw [hdse]
    exact take8_u64be _ _
  have hdse8 : (ie.startKey ++ (ie.endKey ++ (u64be ie.block.offset ++
      (u64be ie.block.length ++ rest)))).drop
      (ie.startKey.length + ie.endKey.length + 8) =
      u64be ie.block.length ++ rest := by
    rw [← List.drop_drop, hdse, drop8_u64be]
  have h7 : ((ie.startKey ++ (ie.endKey ++ (u64be ie.block.offset ++
      (u64be ie.block.length ++ rest)))).drop
      (ie.startKey.length + ie.endKey.length + 8)).take 8 =
      u64be ie.block.length := by
    rw [hdse8]
    exact take8_u64be _ _
  have h8d : (ie.startKey ++ (ie.endKey ++ (u64be ie.block.offset ++
      (u64be ie.block.length ++ rest)))).drop
      (ie.startKey.length + ie.endKey.length + 16) = rest := by
    rw [show ie.startKey.length + ie.endKey.length + 16 =
      ie.startKey.length + ie.endKey.length + 8 + 8 by omega]
    rw [← List.drop_drop, hdse8, drop8_u64be]
  rw [indexDecodeEntries]
  rw [dif_neg (by rw [hlen]; omega)]
  rw [dif_pos (by rw [hlen]; omega)]
  simp only [h1, h2, h3, u32of_u32be _ hs, u32of_u32be _ he]
  rw [dif_pos (by simp [List.length_append, u64be_length, hlen]; omega)]
  simp only [h4, h5t, h6, h7, h8d, u64of_u64be _ ho, u64of_u64be _ hl]
  cases hw : indexDecodeEntries rest <;> simp [Except.map]

theorem indexDecode_indexEncode (entries : List IndexEntry)
    (h : ∀ ie ∈ entries, ie.startKey.length < 2 ^ 32 ∧
      ie.endKey.length < 2 ^ 32 ∧ ie.block.offset < 2 ^ 64 ∧
      ie.block.length < 2 ^ 64) :
    indexDecodeEntries (entries.map indexEncodeEntry).flatten =
      Except.ok entries := by
  induction entries with
  | nil =>
    rw [show (([] : List IndexEntry).map indexEncodeEntry).flatten =
      [] from rfl, indexDecodeEntries]
    simp
  | cons ie rest ih =>
    have henc : ((ie :: rest).map indexEncodeEntry).flatten =
        indexEncodeEntry ie ++ (rest.map indexEncodeEntry).flatten := by
      simp
    obtain ⟨hs, he, ho, hl⟩ := h ie (List.mem_cons_self _ _)
    rw [henc, indexDecode_cons ie _ hs he ho hl,
      ih (fun x hx => h x (List.mem_cons_of_mem _ hx))]
    rfl

/-- C6: Encode/Decode round-trip for every block type: for well-formed
values (entries non-nil — built into the model; key and handle fields
within their wire widths `u32`/`u64`, `createdAt` within `int64`,
`level` within `int32`), decoding the encoding from a fresh receiver
reproduces every field. -/
theorem C6_block_roundtrips (db : DataBlock) (ib : IndexBlock)
    (mb : MetaBlock) (f : Footer)
    (hdb : ∀ e ∈ db.entries, e.key.length < 2 ^ 32 ∧
      e.value.length < 2 ^ 32)
    (hib : ∀ ie ∈ ib.entries, ie.startKey.length < 2 ^ 32 ∧
      ie.endKey.length < 2 ^ 32 ∧ ie.block.offset < 2 ^ 64 ∧
      ie.block.length < 2 ^ 64)
    (hmb : -2 ^ 63 ≤ mb.createdAt ∧ mb.createdAt < 2 ^ 63 ∧
      -2 ^ 31 ≤ mb.level ∧ mb.level < 2 ^ 31)
    (hf : f.meta.offset < 2 ^ 64 ∧ f.meta.length < 2 ^ 64 ∧
      f.index.offset < 2 ^ 64 ∧ f.index.length < 2 ^ 64) :
    DataBlock.decode (DataBlock.encode db) = Except.ok db ∧
    IndexBlock.decode (IndexBlock.encode ib) = Except.ok ib ∧
    MetaBlock.decode (MetaBlock.encode mb) = Except.ok mb ∧
    Footer.decode (Footer.encode f) = Except.ok f := by
  refine ⟨?_, ?_, ?_, ?_⟩
  · unfold DataBlock.decode DataBlock.encode
    rw [walDecode_walEncode db.entries hdb]
    rfl
  · unfold IndexBlock.decode IndexBlock.encode
    rw [indexDecode_indexEncode ib.entries hib]
    rfl
  · exact meta_roundtrip mb hmb.1 hmb.2.1 hmb.2.2.1 hmb.2.2.2
  · exact footer_roundtrip f hf.1 hf.2.1 hf.2.2.1 hf.2.2.2

theorem C6_witness :
    DataBlock.decode (DataBlock.encode ⟨[⟨[107], [118], false⟩,
      ⟨[108], [119], true⟩]⟩) =
      Except.ok ⟨[⟨[107], [118], false⟩, ⟨[108], [119], true⟩]⟩ ∧
    IndexBlock.decode (IndexBlock.encode ⟨[⟨[97], [98], ⟨0, 100⟩⟩,
      ⟨[99], [100], ⟨100, 200⟩⟩]⟩) =
      Except.ok ⟨[⟨[97], [98], ⟨0, 100⟩⟩, ⟨[99], [100], ⟨100, 200⟩⟩]⟩ ∧
    MetaBlock.decode (MetaBlock.encode ⟨1625077800, 1⟩) =
      Except.ok ⟨1625077800, 1⟩ ∧
    Footer.decode (Footer.encode ⟨⟨0, 256⟩, ⟨256, 512⟩⟩) =
      Except.ok ⟨⟨0, 256⟩, ⟨256, 512⟩⟩ :=
  C6_block_roundtrips ⟨[⟨[107], [118], false⟩, ⟨[108], [119], true⟩]⟩
    ⟨[⟨[97], [98], ⟨0, 100⟩⟩, ⟨[99], [100], ⟨100, 200⟩⟩]⟩
    ⟨1625077800, 1⟩ ⟨⟨0, 256⟩, ⟨256, 512⟩⟩
    (by decide) (by decide) (by norm_num) (by decide)

/-! ## IndexBlock.Search (index.go) -/

/-- The binary-search loop of `IndexBlock.Search` (index.go), indexed
with `stop = end + 1` so the indices stay in `Nat`: `start <= end`
becomes `start < stop`, `end = mid - 1` becomes `stop = mid`, and
`mid = (start+end)/2` becomes `(start + (stop-1))/2`. -/
def searchLoop (entries : List IndexEntry) (key : Bytes)
    (start stop : Nat) : BlockHandle × Bool :=
  if h : start < stop then
    if bcmp (entries.getD ((start + (stop - 1)) / 2) default).startKey
         key ≠ .gt ∧
       bcmp (entries.getD ((start + (stop - 1)) / 2) default).endKey
         key ≠ .lt then
      ((entries.getD ((start + (stop - 1)) / 2) default).block, true)
    else if bcmp (entries.getD ((start + (stop - 1)) / 2)
        default).startKey key = .lt then
      searchLoop entries key ((start + (stop - 1)) / 2 + 1) stop
    else
      searchLoop entries key start ((start + (stop - 1)) / 2)
  else
    (⟨0, 0⟩, false)
termination_by stop - start
decreasing_by
  · omega
  · have hmid : (start + (stop - 1)) / 2 < stop := by omega
    omega

/-- `IndexBlock.Search` (index.go): `start, end := 0, len(entries)-1`. -/
def IndexBlock.search (ib : IndexBlock) (key : Bytes) :
    BlockHandle × Bool :=
  searchLoop ib.entries key 0 ib.entries.length

/-- Cover predicate: `startKey <= k <= endKey`, both bounds inclusive,
exactly the hit condition of `IndexBlock.Search`. -/
def Covers (ie : IndexEntry) (k : Bytes) : Prop :=
  keyLe ie.startKey k ∧ keyLe k ie.endKey

instance (ie : IndexEntry) (k : Bytes) : Decidable (Covers ie k) := by
  unfold Covers
  infer_instance

theorem ne_lt_iff_keyLe (a b : Bytes) : bcmp a b ≠ .lt ↔ keyLe b a := by
  unfold keyLe
  rw [bcmp_swap a b]
  cases bcmp a b <;> simp [Ordering.swap]

theorem searchLoop_step (entries : List IndexEntry) (key : Bytes)
    (start stop : Nat) (h : start < stop) :
    searchLoop entries key start stop =
      (if bcmp (entries.getD ((start + (stop - 1)) / 2)
           default).startKey key ≠ .gt ∧
         bcmp (entries.getD ((start + (stop - 1)) / 2) default).endKey
           key ≠ .lt then
        ((entries.getD ((start + (stop - 1)) / 2) default).block, true)
      else if bcmp (entries.getD ((start + (stop - 1)) / 2)
          default).startKey key = .lt then
        searchLoop entries key ((start + (stop - 1)) / 2 + 1) stop
      else searchLoop entries key start ((start + (stop - 1)) / 2)) := by
  rw [searchLoop, dif_pos h]

theorem searchLoop_stop (entries : List IndexEntry) (key : Bytes)
    (start stop : Nat) (h : ¬ start < stop) :
    searchLoop entries key start stop = (⟨0, 0⟩, false) := by
  rw [searchLoop, dif_neg h]

theorem index_disjoint_getD (entries : List IndexEntry)
    (hsorted : entries.Pairwise (fun a b => keyLt a.endKey b.startKey))
    (i j : Nat) (hij : i < j) (hj : j < entries.length) :
    keyLt (entries.getD i default).endKey
      (entries.getD j default).startKey := by
  rw [List.getD_eq_getElem _ _ (by omega), List.getD_eq_getElem _ _ hj]
  exact List.pairwise_iff_getElem.mp hsorted i j (by omega) hj hij

theorem getD_mem (entries : List IndexEntry) (i : Nat)
    (hi : i < entries.length) : entries.getD i default ∈ entries := by
  rw [List.getD_eq_getElem _ _ hi]
  exact List.getElem_mem hi

theorem searchLoop_found (entries : List IndexEntry) (k : Bytes)
    (hwf : ∀ ie ∈ entries, keyLe ie.startKey ie.endKey)
    (hsorted : entries.Pairwise (fun a b => keyLt a.endKey b.startKey)) :
    ∀ start stop, (∀ c, start ≤ c → c < stop → stop ≤ entries.length →
      Covers (entries.getD c default) k →
      searchLoop entries k start stop =
        ((entries.getD c default).block, true)) := by
  intro start stop
  induction start, stop using searchLoop.induct entries k with
  | case1 start stop h hcond =>
    intro c hc1 hc2 hstop hcov
    rw [searchLoop_step entries k start stop h]
    simp only [if_pos hcond]
    have hmidlt : (start + (stop - 1)) / 2 < entries.length := by omega
    have hcovmid : Covers (entries.getD ((start + (stop - 1)) / 2)
        default) k := ⟨hcond.1, (ne_lt_iff_keyLe _ _).mp hcond.2⟩
    have hmc : (start + (stop - 1)) / 2 = c := by
      by_contra hne
      rcases Nat.lt_or_ge ((start + (stop - 1)) / 2) c with hlt | hge
      · have hd := index_disjoint_getD entries hsorted _ c hlt (by omega)
        have := keyLt_of_le_of_lt hcovmid.2 hd
        have h2 := keyLt_of_lt_of_le this hcov.1
        unfold keyLt at h2
        rw [bcmp_refl] at h2
        cases h2
      · have hlt2 : c < (start + (stop - 1)) / 2 := by omega
        have hd := index_disjoint_getD entries hsorted c _ hlt2 hmidlt
        have := keyLt_of_le_of_lt hcov.2 hd
        have h2 := keyLt_of_lt_of_le this hcovmid.1
        unfold keyLt at h2
        rw [bcmp_refl] at h2
        cases h2
    rw [hmc]
  | case2 start stop h hcond hdir ih =>
    intro c hc1 hc2 hstop hcov
    rw [searchLoop_step entries k start stop h]
    simp only [if_neg hcond, if_pos hdir]
    have hmidlt : (start + (stop - 1)) / 2 < entries.length := by omega
    have hgt : (start + (stop - 1)) / 2 < c := by
      rcases Nat.lt_trichotomy ((start + (stop - 1)) / 2) c with h3 | h3 | h3
      · exact h3
      · exfalso
        apply hcond
        rw [h3]
        exact ⟨hcov.1, (ne_lt_iff_keyLe _ _).mpr hcov.2⟩
      · exfalso
        have hd := index_disjoint_getD entries hsorted c _ h3 hmidlt
        have h4 : keyLt k (entries.getD ((start + (stop - 1)) / 2)
            default).startKey := keyLt_of_le_of_lt hcov.2 hd
        have h5 : keyLt k k := keyLt_of_lt_of_le h4 (keyLe_of_lt hdir)
        unfold keyLt at h5
        rw [bcmp_refl] at h5
        cases h5
    exact ih c (by omega) hc2 hstop hcov
  | case3 start stop h hcond hdir ih =>
    intro c hc1 hc2 hstop hcov
    rw [searchLoop_step entries k start stop h]
    simp only [if_neg hcond, if_neg hdir]
    have hmidlt : (start + (stop - 1)) / 2 < entries.length := by omega
    have hlt : c < (start + (stop - 1)) / 2 := by
      rcases Nat.lt_trichotomy c ((start + (stop - 1)) / 2) with h3 | h3 | h3
      · exact h3
      · exfalso
        apply hcond
        rw [← h3]
        exact ⟨hcov.1, (ne_lt_iff_keyLe _ _).mpr hcov.2⟩
      · exfalso
        have hd := index_disjoint_getD entries hsorted _ c h3 (by omega)
        have hw := hwf _ (getD_mem entries ((start + (stop - 1)) / 2)
          hmidlt)
        have h4 : keyLt (entries.getD ((start + (stop - 1)) / 2)
            default).startKey k := by
          apply keyLt_of_le_of_lt hw
          exact keyLt_of_lt_of_le hd hcov.1
        exact hdir h4
    exact ih c hc1 hlt (by omega) hcov
  | case4 start stop h =>
    intro c hc1 hc2 _ _
    omega

theorem searchLoop_notfound (entries : List IndexEntry) (k : Bytes)
    (hno : ∀ ie ∈ entries, ¬ Covers ie k) :
    ∀ start stop, stop ≤ entries.length →
      searchLoop entries k start stop = (⟨0, 0⟩, false) := by
  intro start stop
  induction start, stop using searchLoop.induct entries k with
  | case1 start stop h hcond =>
    intro hstop
    exfalso
    have hmidlt : (start + (stop - 1)) / 2 < entries.length := by omega
    exact hno _ (getD_mem entries _ hmidlt)
      ⟨hcond.1, (ne_lt_iff_keyLe _ _).mp hcond.2⟩
  | case2 start stop h hcond hdir ih =>
    intro hstop
    rw [searchLoop_step entries k start stop h]
    simp only [if_neg hcond, if_pos hdir]
    exact ih hstop
  | case3 start stop h hcond hdir ih =>
    intro hstop
    rw [searchLoop_step entries k start stop h]
    simp only [if_neg hcond, if_neg hdir]
    exact ih (by omega)
  | case4 start stop h =>
    intro _
    exact searchLoop_stop entries k start stop h

/-- C7: `IndexBlock.Search` over sorted, pairwise-disjoint, well-formed
`[startKey, endKey]` ranges returns the covering handle (found) for
every key inside some range, boundaries included, and the zero handle
(not found) for every key outside all ranges. -/
theorem C7_index_block_search (ib : IndexBlock) (k : Bytes)
    (hwf : ∀ ie ∈ ib.entries, keyLe ie.startKey ie.endKey)
    (hsorted : ib.entries.Pairwise (fun a b => keyLt a.endKey b.startKey)) :
    (∀ c, c < ib.entries.length →
      Covers (ib.entries.getD c default) k →
      IndexBlock.search ib k = ((ib.entries.getD c default).block, true)) ∧
    ((∀ ie ∈ ib.entries, ¬ Covers ie k) →
      IndexBlock.search ib k = (⟨0, 0⟩, false)) := by
  constructor
  · intro c hc hcov
    exact searchLoop_found ib.entries k hwf hsorted 0 ib.entries.length c
      (by omega) hc (by omega) hcov
  · intro hno
    exact searchLoop_notfound ib.entries k hno 0 ib.entries.length
      (by omega)

theorem C7_witness :
    IndexBlock.search
      ⟨[⟨[97], [99], ⟨0, 100⟩⟩, ⟨[100], [102], ⟨100, 200⟩⟩]⟩ [98] =
      (⟨0, 100⟩, true) ∧
    IndexBlock.search
      ⟨[⟨[97], [99], ⟨0, 100⟩⟩, ⟨[100], [102], ⟨100, 200⟩⟩]⟩ [103] =
      (⟨0, 0⟩, false) := by
  have hwf : ∀ ie ∈ ([⟨[97], [99], ⟨0, 100⟩⟩,
      ⟨[100], [102], ⟨100, 200⟩⟩] : List IndexEntry),
      keyLe ie.startKey ie.endKey := by
    intro ie hie
    simp at hie
    rcases hie with rfl | rfl <;> decide
  have hsorted : ([⟨[97], [99], ⟨0, 100⟩⟩,
      ⟨[100], [102], ⟨100, 200⟩⟩] : List IndexEntry).Pairwise
      (fun a b => keyLt a.endKey b.startKey) := by
    refine List.pairwise_cons.mpr ⟨?_, List.pairwise_singleton _ _⟩
    intro b hb
    simp at hb
    subst hb
    decide
  constructor
  · exact (C7_index_block_search
      ⟨[⟨[97], [99], ⟨0, 100⟩⟩, ⟨[100], [102], ⟨100, 200⟩⟩]⟩ [98]
      hwf hsorted).1 0 (by decide) (by decide)
  · exact (C7_index_block_search
      ⟨[⟨[97], [99], ⟨0, 100⟩⟩, ⟨[100], [102], ⟨100, 200⟩⟩]⟩ [103]
      hwf hsorted).2 (by
        intro ie hie
        simp at hie
        rcases hie with rfl | rfl <;> decide)

/-! ## SSTable Build (sstable.go, `Build`) -/

/-- Sum of entry sizes, the loop's `currentSize`. -/
def sizeSum (l : List Entry) : Nat := (l.map Entry.size).sum

/-- One iteration of the data-block partition loop of `Build`
(sstable.go lines 44-53): flush the current block when adding the next
entry would exceed `blockSize` and the block is non-empty, then append
the entry.  Go's `blockSize` is an `int`; every non-positive value
behaves exactly like 0 (the overflow test is always true), so it is
modelled as `Nat`. -/
def buildStep (blockSize : Nat)
    (st : List (List Entry) × List Entry × Nat) (entry : Entry) :
    List (List Entry) × List Entry × Nat :=
  if st.2.2 + entry.size > blockSize ∧ st.2.2 > 0 then
    (st.1 ++ [st.2.1], [entry], entry.size)
  else
    (st.1, st.2.1 ++ [entry], st.2.2 + entry.size)

/-- The data-block partition of `Build` (lines 44-56), including the
final `if len(currentBlock.entries) > 0` flush. -/
def buildBlocks (entries : List Entry) (blockSize : Nat) :
    List (List Entry) :=
  if (entries.foldl (buildStep blockSize) ([], [], 0)).2.1.length > 0
  then (entries.foldl (buildStep blockSize) ([], [], 0)).1 ++
    [(entries.foldl (buildStep blockSize) ([], [], 0)).2.1]
  else (entries.foldl (buildStep blockSize) ([], [], 0)).1

/-- The index-building loop of `Build` (lines 62-91): for each data
block, record `(startKey = first entry's key, endKey = last entry's
key)` and a handle at the running offset, then advance the offset by
the encoded block length. -/
def buildIndexLoop : List (List Entry) → Nat → List IndexEntry
  | [], _ => []
  | db :: rest, offset =>
    ⟨(db.getD 0 default).key, (db.getD (db.length - 1) default).key,
     ⟨offset, (walEncode db).length⟩⟩ ::
      buildIndexLoop rest (offset + (walEncode db).length)

def buildIndex (dataBlocks : List (List Entry)) : List IndexEntry :=
  buildIndexLoop dataBlocks 0

/-- `Build` (sstable.go), with `time.Now().Unix()` passed in as
`createdAt`: data blocks, then meta block, index block and footer. -/
def Build (entries : List Entry) (blockSize : Nat) (level : Int)
    (createdAt : Int) : List Nat :=
  let dataBlocks := buildBlocks entries blockSize
  let dataBytes := (dataBlocks.map walEncode).flatten
  let metaBytes := MetaBlock.encode ⟨createdAt, level⟩
  let indexBytes := IndexBlock.encode ⟨buildIndex dataBlocks⟩
  let footerBytes := Footer.encode
    ⟨⟨dataBytes.length, metaBytes.length⟩,
     ⟨dataBytes.length + metaBytes.length, indexBytes.length⟩⟩
  dataBytes ++ metaBytes ++ indexBytes ++ footerBytes

/-- Within a block, no entry after the first pushed the accumulated
size beyond `blockSize` (otherwise a new block would have started). -/
def WithinOk (blockSize : Nat) (b : List Entry) : Prop :=
  ∀ j < b.length, 0 < j →
    sizeSum (b.take j) + (b.getD j default).size ≤ blockSize

/-- Between consecutive blocks, the first entry of the next block would
have overflowed the previous block. -/
def BoundaryR (blockSize : Nat) (b1 b2 : List Entry) : Prop :=
  blockSize < sizeSum b1 + (b2.headD default).size

theorem sizeSum_pos (l : List Entry) (h : l ≠ []) : 0 < sizeSum l := by
  cases l with
  | nil => exact absurd rfl h
  | cons e rest =>
    have : e.size > 0 := by
      unfold Entry.size
      omega
    simp [sizeSum]
    omega

theorem sizeSum_append_one (l : List Entry) (e : Entry) :
    sizeSum (l ++ [e]) = sizeSum l + e.size := by
  simp [sizeSum]

theorem buildFold_flatten (blockSize : Nat) :
    ∀ (es : List Entry) (blocks : List (List Entry)) (cur : List Entry)
      (sz : Nat),
    (es.foldl (buildStep blockSize) (blocks, cur, sz)).1.flatten ++
      (es.foldl (buildStep blockSize) (blocks, cur, sz)).2.1 =
      blocks.flatten ++ cur ++ es := by
  intro es
  induction es with
  | nil =>
    intro blocks cur sz
    simp
  | cons e rest ih =>
    intro blocks cur sz
    simp only [List.foldl_cons]
    by_cases hc : sz + e.size > blockSize ∧ sz > 0
    · rw [show buildStep blockSize (blocks, cur, sz) e =
        (blocks ++ [cur], [e], e.size) from by
          simp only [buildStep]
          rw [if_pos hc]]
      rw [ih]
      simp
    · rw [show buildStep blockSize (blocks, cur, sz) e =
        (blocks, cur ++ [e], sz + e.size) from by
          simp only [buildStep]
          rw [if_neg hc]]
      rw [ih]
      simp

theorem withinOk_append (blockSize : Nat) (cur : List Entry) (e : Entry)
    (hw : WithinOk blockSize cur)
    (hle : sizeSum cur + e.size ≤ blockSize) :
    WithinOk blockSize (cur ++ [e]) := by
  intro j hjlen hj0
  rw [List.length_append, List.length_singleton] at hjlen
  by_cases hj : j < cur.length
  · rw [List.take_append_of_le_length (by omega),
      List.getD_append _ _ _ _ hj]
    exact hw j hj hj0
  · have hjeq : j = cur.length := by omega
    subst hjeq
    rw [List.take_left]
    have hg : (cur ++ [e]).getD cur.length default = e := by
      rw [List.getD_eq_getElem?_getD,
        List.getElem?_append_right (by omega)]
      simp
    rw [hg]
    exact hle

theorem buildFold_spec (blockSize : Nat) :
    ∀ (es : List Entry) (blocks : List (List Entry)) (cur : List Entry),
    cur ≠ [] →
    (∀ b ∈ blocks, b ≠ []) →
    (∀ b ∈ blocks, WithinOk blockSize b) →
    WithinOk blockSize cur →
    List.Chain' (BoundaryR blockSize) (blocks ++ [cur]) →
    ∃ blocks2 cur2,
      es.foldl (buildStep blockSize) (blocks, cur, sizeSum cur) =
        (blocks2, cur2, sizeSum cur2) ∧
      cur2 ≠ [] ∧ (∀ b ∈ blocks2, b ≠ []) ∧
      (∀ b ∈ blocks2, WithinOk blockSize b) ∧ WithinOk blockSize cur2 ∧
      List.Chain' (BoundaryR blockSize) (blocks2 ++ [cur2]) := by
  intro es
  induction es with
  | nil =>
    intro blocks cur hne hbne hbw hcw hch
    exact ⟨blocks, cur, rfl, hne, hbne, hbw, hcw, hch⟩
  | cons e rest ih =>
    intro blocks cur hne hbne hbw hcw hch
    simp only [List.foldl_cons]
    by_cases hc : sizeSum cur + e.size > blockSize ∧ sizeSum cur > 0
    · rw [show buildStep blockSize (blocks, cur, sizeSum cur) e =
        (blocks ++ [cur], [e], sizeSum [e]) from by
          simp only [buildStep]
          rw [if_pos hc]
          simp [sizeSum]]
      apply ih (blocks ++ [cur]) [e] (by simp)
      · intro b hb
        rcases List.mem_append.mp hb with h2 | h2
        · exact hbne b h2
        · rw [List.mem_singleton.mp h2]
          exact hne
      · intro b hb
        rcases List.mem_append.mp hb with h2 | h2
        · exact hbw b h2
        · rw [List.mem_singleton.mp h2]
          exact hcw
      · intro j hjlen hj0
        simp at hjlen
        omega
      · rw [List.chain'_append]
        refine ⟨hch, List.chain'_singleton _, ?_⟩
        intro x hx y hy
        simp at hy
        subst hy
        rw [List.getLast?_concat] at hx
        injection hx with hx2
        subst hx2
        unfold BoundaryR
        cases hcur : cur with
        | nil => exact absurd hcur hne
        | cons c0 crest =>
          simp [List.headD]
          rw [← hcur]
          omega
    · rw [show buildStep blockSize (blocks, cur, sizeSum cur) e =
        (blocks, cur ++ [e], sizeSum (cur ++ [e])) from by
          simp only [buildStep]
          rw [if_neg hc]
          rw [sizeSum_append_one]]
      have hszpos : sizeSum cur > 0 := sizeSum_pos cur hne
      have hle : sizeSum cur + e.size ≤ blockSize := by
        rcases Nat.lt_or_ge blockSize (sizeSum cur + e.size) with h2 | h2
        · exact absurd ⟨h2, hszpos⟩ hc
        · omega
      apply ih blocks (cur ++ [e]) (by simp) hbne hbw
        (withinOk_append blockSize cur e hcw hle)
      rw [List.chain'_append] at hch ⊢
      refine ⟨hch.1, List.chain'_singleton _, ?_⟩
      intro x hx y hy
      simp at hy
      subst hy
      have := hch.2.2 x hx (cur) (by simp)
      unfold BoundaryR at this ⊢
      cases hcur : cur with
      | nil => exact absurd hcur hne
      | cons c0 crest =>
        rw [hcur] at this
        simp [List.headD] at this ⊢
        exact this

theorem buildBlocks_spec (entries : List Entry) (blockSize : Nat)
    (hne : entries ≠ []) :
    (buildBlocks entries blockSize).flatten = entries ∧
    (∀ b ∈ buildBlocks entries blockSize, b ≠ []) ∧
    (∀ b ∈ buildBlocks entries blockSize, WithinOk blockSize b) ∧
    List.Chain' (BoundaryR blockSize) (buildBlocks entries blockSize) := by
  cases entries with
  | nil => exact absurd rfl hne
  | cons e0 rest =>
    have hstep0 : buildStep blockSize ([], [], 0) e0 =
        ([], [e0], sizeSum [e0]) := by
      simp only [buildStep]
      rw [if_neg (by simp)]
      simp [sizeSum]
    obtain ⟨b2, c2, heq, hne2, hbne2, hbw2, hcw2, hch2⟩ :=
      buildFold_spec blockSize rest [] [e0] (by simp) (by simp) (by simp)
        (by intro j hjlen hj0; simp at hjlen; omega)
        (by simpa using List.chain'_singleton [e0])
    have hfold : (e0 :: rest).foldl (buildStep blockSize) ([], [], 0) =
        (b2, c2, sizeSum c2) := by
      rw [List.foldl_cons, hstep0]
      exact heq
    have hflat := buildFold_flatten blockSize (e0 :: rest) [] [] 0
    rw [hfold] at hflat
    have hc2len : c2.length > 0 := by
      cases c2 with
      | nil => exact absurd rfl hne2
      | cons a l => simp
    have hbb : buildBlocks (e0 :: rest) blockSize = b2 ++ [c2] := by
      unfold buildBlocks
      rw [hfold]
      simp only []
      rw [if_pos hc2len]
    rw [hbb]
    refine ⟨?_, ?_, ?_, hch2⟩
    · simp at hflat ⊢
      exact hflat
    · intro b hb
      rcases List.mem_append.mp hb with h2 | h2
      · exact hbne2 b h2
      · rw [List.mem_singleton.mp h2]
        exact hne2
    · intro b hb
      rcases List.mem_append.mp hb with h2 | h2
      · exact hbw2 b h2
      · rw [List.mem_singleton.mp h2]
        exact hcw2

theorem buildIndexLoop_length : ∀ (dbs : List (List Entry)) (off : Nat),
    (buildIndexLoop dbs off).length = dbs.length := by
  intro dbs
  induction dbs with
  | nil => intro off; rfl
  | cons db rest ih =>
    intro off
    simp only [buildIndexLoop, List.length_cons, ih]

theorem buildIndexLoop_getD : ∀ (dbs : List (List Entry)) (off i : Nat),
    i < dbs.length →
    (buildIndexLoop dbs off).getD i default =
      ⟨((dbs.getD i []).getD 0 default).key,
       ((dbs.getD i []).getD ((dbs.getD i []).length - 1) default).key,
       ⟨off + ((dbs.take i).map (fun b => (walEncode b).length)).sum,
        (walEncode (dbs.getD i [])).length⟩⟩ := by
  intro dbs
  induction dbs with
  | nil =>
    intro off i h
    simp at h
  | cons db rest ih =>
    intro off i h
    cases i with
    | zero =>
      simp [buildIndexLoop]
    | succ n =>
      simp only [buildIndexLoop, List.getD_cons_succ]
      rw [ih (off + (walEncode db).length) n (by simpa using h)]
      simp [List.take_succ_cons]
      omega

instance (l : List Entry) : Decidable (SortedE l) := by
  unfold SortedE
  infer_instance

instance (bs : Nat) (b : List Entry) : Decidable (WithinOk bs b) := by
  unfold WithinOk
  infer_instance

instance (bs : Nat) (b1 b2 : List Entry) : Decidable (BoundaryR bs b1 b2) := by
  unfold BoundaryR
  infer_instance

/-- C5: `Build` partitions a non-empty sorted input, in order, into
consecutive non-empty data blocks: within a block no later entry
overflows `blockSize`, a new block starts exactly when the next entry
would overflow a non-empty block (`List.Chain'` of `BoundaryR`), and
the index records, per block, the first entry's key, the last entry's
key, and a handle whose offset is the total encoded length of the
preceding data blocks. -/
theorem C5_build_partition (entries : List Entry) (blockSize : Nat)
    (hne : entries ≠ []) (hbs : 0 < blockSize)
    (hsorted : SortedE entries) :
    (buildBlocks entries blockSize).flatten = entries ∧
    (∀ b ∈ buildBlocks entries blockSize, b ≠ []) ∧
    (∀ b ∈ buildBlocks entries blockSize, WithinOk blockSize b) ∧
    List.Chain' (BoundaryR blockSize) (buildBlocks entries blockSize) ∧
    (buildIndex (buildBlocks entries blockSize)).length =
      (buildBlocks entries blockSize).length ∧
    (∀ i, i < (buildBlocks entries blockSize).length →
      (buildIndex (buildBlocks entries blockSize)).getD i default =
        ⟨(((buildBlocks entries blockSize).getD i []).getD 0 default).key,
         (((buildBlocks entries blockSize).getD i []).getD
           (((buildBlocks entries blockSize).getD i []).length - 1)
           default).key,
         ⟨(((buildBlocks entries blockSize).take i).map
             (fun b => (walEncode b).length)).sum,
          (walEncode ((buildBlocks entries blockSize).getD i
            [])).length⟩⟩) := by
  obtain ⟨h1, h2, h3, h4⟩ := buildBlocks_spec entries blockSize hne
  refine ⟨h1, h2, h3, h4, buildIndexLoop_length _ 0, ?_⟩
  intro i hi
  have hg := buildIndexLoop_getD (buildBlocks entries blockSize) 0 i hi
  simpa using hg

theorem C5_witness :
    (buildBlocks [⟨[97], [120], false⟩, ⟨[98], [121], false⟩] 4).flatten =
      [⟨[97], [120], false⟩, ⟨[98], [121], false⟩] :=
  (C5_build_partition [⟨[97], [120], false⟩, ⟨[98], [121], false⟩] 4
    (by decide) (by decide) (by decide)).1

/-! ## SkipList (skiplist.go, the `Entry`-based variant)

The pointer graph is embedded as an arena: `nodes` is the list of all
nodes ever inserted, and a forward "pointer" is `some i` (index into
the arena) or `none` (Go `nil`); the distinguished header node is the
`head` field.  A cursor (`Option Nat`) is either `none` (at the header)
or `some i` (at arena node `i`).  The probabilistic level of `Insert`
(`rand.Intn(2)` coin flips, capped at `maxLevel-1`) is passed in as a
parameter. -/

structure SLNode where
  entry : Entry
  forward : List (Option Nat)
  level : Nat
deriving DecidableEq, Repr, Inhabited

structure SkipList where
  head : SLNode
  nodes : List SLNode
  maxLevel : Nat
  currentLevel : Nat
  length : Nat
deriving DecidableEq, Repr, Inhabited

/-- The node a cursor points at. -/
def getNode (sl : SkipList) : Option Nat → SLNode
  | none => sl.head
  | some i => sl.nodes.getD i default

/-- `current.forward[lvl]` as an arena index. -/
def fwd (sl : SkipList) (cur : Option Nat) (lvl : Nat) : Option Nat :=
  (getNode sl cur).forward.getD lvl none

/-- Key of the node a cursor points at (never read for the header in
any traversal). -/
def nodeKey (sl : SkipList) (n : Nat) : Bytes :=
  (sl.nodes.getD n default).entry.key

/-- The inner advancing loop shared by `Get`, `Delete`, `Update` and
`Insert`: `for current.forward[i] != nil && current.forward[i].Key <
key { current = current.forward[i] }`.  On well-formed lists the links
strictly advance along the sorted base chain, so `nodes.length + 1`
fuel is never exhausted. -/
def advance (sl : SkipList) (key : Bytes) (lvl : Nat) :
    Nat → Option Nat → Option Nat
  | 0, cur => cur
  | fuel + 1, cur =>
    match fwd sl cur lvl with
    | none => cur
    | some nxt =>
      if bcmp (nodeKey sl nxt) key = .lt then
        advance sl key lvl fuel (some nxt)
      else cur

/-- The level-`lvl` chain reachable from a cursor, by fuel. -/
def chainFrom (sl : SkipList) (lvl : Nat) :
    Nat → Option Nat → List Nat
  | 0, _ => []
  | fuel + 1, cur =>
    match fwd sl cur lvl with
    | none => []
    | some n => n :: chainFrom sl lvl fuel (some n)

/-- The base (level-0) chain from the header. -/
def chain0 (sl : SkipList) : List Nat :=
  chainFrom sl 0 (sl.nodes.length + 1) none

/-- Position of a cursor along the base chain: the header is 0, the
node at base-chain index `q` is `q + 1`. -/
def posIdx (sl : SkipList) : Option Nat → Nat
  | none => 0
  | some n => (chain0 sl).indexOf n + 1

/-- One link obeys the well-formedness discipline: its target is on
the base chain, strictly further along than the source. -/
def linkOk (sl : SkipList) (cur : Option Nat) (lvl : Nat) : Bool :=
  match fwd sl cur lvl with
  | none => true
  | some t =>
    decide (t ∈ chain0 sl) && decide (posIdx sl cur < posIdx sl (some t))

/-- Well-formed skip-list state: the base chain visits every arena
node exactly once in non-decreasing key order, all forward arrays have
the full `maxLevel` width, `currentLevel` is in range, and every link
(from the header or any chain node, at any level) lands strictly
further along the base chain. -/
def WF (sl : SkipList) : Prop :=
  (chain0 sl).length = sl.nodes.length ∧
  (chain0 sl).Nodup ∧
  (∀ n ∈ chain0 sl, n < sl.nodes.length) ∧
  List.Chain' (fun a b => keyLe (nodeKey sl a) (nodeKey sl b))
    (chain0 sl) ∧
  sl.head.forward.length = sl.maxLevel ∧
  (∀ nd ∈ sl.nodes, nd.forward.length = sl.maxLevel) ∧
  sl.currentLevel < sl.maxLevel ∧
  (∀ lvl ∈ List.range sl.maxLevel, linkOk sl none lvl = true) ∧
  (∀ n ∈ chain0 sl, ∀ lvl ∈ List.range sl.maxLevel,
    linkOk sl (some n) lvl = true)

/-- The per-level body of `Get` (skiplist.go): advance, then return
the value on an exact key match, else drop one level. -/
def getFrom (sl : SkipList) (key : Bytes) :
    Nat → Option Nat → Option Bytes
  | 0, cur =>
    match fwd sl (advance sl key 0 (sl.nodes.length + 1) cur) 0 with
    | some n =>
      if bcmp (nodeKey sl n) key = .eq then
        some (sl.nodes.getD n default).entry.value
      else none
    | none => none
  | i' + 1, cur =>
    match fwd sl (advance sl key (i' + 1) (sl.nodes.length + 1) cur)
        (i' + 1) with
    | some n =>
      if bcmp (nodeKey sl n) key = .eq then
        some (sl.nodes.getD n default).entry.value
      else
        getFrom sl key i'
          (advance sl key (i' + 1) (sl.nodes.length + 1) cur)
    | none =>
      getFrom sl key i'
        (advance sl key (i' + 1) (sl.nodes.length + 1) cur)

/-- `SkipList.Get`: top-down traversal from `currentLevel`;
`(value, true)` is `some value`, `(nil, false)` is `none`. -/
def SkipList.get (sl : SkipList) (key : Bytes) : Option Bytes :=
  getFrom sl key sl.currentLevel none

/-- Overwrite the value stored in arena node `n` in place
(`current.forward[i].Value = value`). -/
def setValue (sl : SkipList) (n : Nat) (value : Bytes) : SkipList :=
  let nd := sl.nodes.getD n default
  let nd2 := { nd with entry := { nd.entry with value := value } }
  { sl with nodes := sl.nodes.set n nd2 }

/-- The per-level body of `Update` (skiplist.go): advance, overwrite
the value wherever the key matches, remember that a match was found,
and drop one level; the loop runs all the way down to level 0. -/
def updateFrom (key value : Bytes) :
    Nat → SkipList → Option Nat → Bool → SkipList × Bool
  | 0, sl, cur, found =>
    match fwd sl (advance sl key 0 (sl.nodes.length + 1) cur) 0 with
    | some n =>
      if bcmp (nodeKey sl n) key = .eq then (setValue sl n value, true)
      else (sl, found)
    | none => (sl, found)
  | i' + 1, sl, cur, found =>
    match fwd sl (advance sl key (i' + 1) (sl.nodes.length + 1) cur)
        (i' + 1) with
    | some n =>
      if bcmp (nodeKey sl n) key = .eq then
        updateFrom key value i' (setValue sl n value)
          (advance sl key (i' + 1) (sl.nodes.length + 1) cur) true
      else
        updateFrom key value i' sl
          (advance sl key (i' + 1) (sl.nodes.length + 1) cur) found
    | none =>
      updateFrom key value i' sl
        (advance sl key (i' + 1) (sl.nodes.length + 1) cur) found

/-- `SkipList.Update`: returns the state after the in-place value
writes together with the `found` flag. -/
def SkipList.update (sl : SkipList) (key value : Bytes) :
    SkipList × Bool :=
  updateFrom key value sl.currentLevel sl none false

/-- Overwrite one forward slot of a node. -/
def setFwd (nd : SLNode) (lvl : Nat) (t : Option Nat) : SLNode :=
  { nd with forward := nd.forward.set lvl t }

/-- Overwrite `current.forward[lvl]` where `current` is the header or
an arena node. -/
def updateFwdAt (sl : SkipList) (cur : Option Nat) (lvl : Nat)
    (t : Option Nat) : SkipList :=
  match cur with
  | none => { sl with head := setFwd sl.head lvl t }
  | some n =>
    let nd2 := setFwd (sl.nodes.getD n default) lvl t
    { sl with nodes := sl.nodes.set n nd2 }

/-- The linking descent of `Insert` (skiplist.go): at every level at or
below the new node's level, splice the new node in after the advanced
cursor (`node.forward[i] = current.forward[i]; current.forward[i] =
node`). -/
def insertLoop (key : Bytes) (newIdx nodeLevel : Nat) :
    Nat → SkipList → Option Nat → SkipList
  | i, sl, cur =>
    let cur2 := advance sl key i (sl.nodes.length + 1) cur
    let sl2 :=
      if i ≤ nodeLevel then
        updateFwdAt (updateFwdAt sl (some newIdx) i (fwd sl cur2 i))
          cur2 i (some newIdx)
      else sl
    match i with
    | 0 => sl2
    | i' + 1 => insertLoop key newIdx nodeLevel i' sl2 cur2

/-- A fresh skip list (`NewSkipList`): a header with `maxLevel` nil
links and an empty arena. -/
def NewSkipList (maxLevel : Nat) : SkipList :=
  ⟨⟨default, List.replicate maxLevel none, 0⟩, [], maxLevel, 0, 0⟩

/-- `SkipList.Insert` (skiplist.go), with the coin-flip count passed as
`lvl`: the new node's level is `min lvl (maxLevel - 1)`; `currentLevel`
is raised first, then the descent links the node in at every level up
to its own. -/
def SkipList.insert (sl : SkipList) (key value : Bytes) (lvl : Nat) :
    SkipList :=
  let nodeLevel := min lvl (sl.maxLevel - 1)
  let cl := max sl.currentLevel nodeLevel
  let newIdx := sl.nodes.length
  let sl1 : SkipList :=
    { sl with
      nodes := sl.nodes ++
        [⟨⟨key, value, false⟩, List.replicate sl.maxLevel none,
          nodeLevel⟩],
      currentLevel := cl,
      length := sl.length + 1 }
  insertLoop key newIdx nodeLevel cl sl1 none

/-- A structurally recursive decision procedure for `List.Chain`, so
that concrete well-formedness checks evaluate inside the kernel. -/
def decChain {α : Type} (R : α → α → Prop) [DecidableRel R] :
    ∀ (a : α) (l : List α), Decidable (List.Chain R a l)
  | _, [] => isTrue List.Chain.nil
  | a, b :: l =>
    haveI : Decidable (List.Chain R b l) := decChain R b l
    decidable_of_iff (R a b ∧ List.Chain R b l) List.chain_cons.symm

instance (priority := 1100) decChainPrime {α : Type} (R : α → α → Prop)
    [DecidableRel R] (l : List α) : Decidable (List.Chain' R l) :=
  match l with
  | [] => isTrue trivial
  | a :: l => decChain R a l

instance (sl : SkipList) : Decidable (WF sl) :=
  inferInstanceAs (Decidable (
    (chain0 sl).length = sl.nodes.length ∧
    (chain0 sl).Nodup ∧
    (∀ n ∈ chain0 sl, n < sl.nodes.length) ∧
    List.Chain' (fun a b => keyLe (nodeKey sl a) (nodeKey sl b))
      (chain0 sl) ∧
    sl.head.forward.length = sl.maxLevel ∧
    (∀ nd ∈ sl.nodes, nd.forward.length = sl.maxLevel) ∧
    sl.currentLevel < sl.maxLevel ∧
    (∀ lvl ∈ List.range sl.maxLevel, linkOk sl none lvl = true) ∧
    (∀ n ∈ chain0 sl, ∀ lvl ∈ List.range sl.maxLevel,
      linkOk sl (some n) lvl = true)))

/-! ### Base-chain structure -/

/-- One-step unfolding of `chainFrom`. -/
theorem chainFrom_succ (sl : SkipList) (lvl fuel : Nat) (cur : Option Nat) :
    chainFrom sl lvl (fuel + 1) cur =
      match fwd sl cur lvl with
      | none => []
      | some n => n :: chainFrom sl lvl fuel (some n) := rfl

/-- Following the level-`lvl` links yields a `fwd`-linked chain of
cursors. -/
theorem chainFrom_chain (sl : SkipList) (lvl : Nat) :
    ∀ (fuel : Nat) (cur : Option Nat),
      List.Chain (fun a b => fwd sl a lvl = b) cur
        ((chainFrom sl lvl fuel cur).map some) := by
  intro fuel
  induction fuel with
  | zero =>
    intro cur
    simp only [chainFrom, List.map_nil]
    exact List.Chain.nil
  | succ fuel ih =>
    intro cur
    rw [chainFrom_succ]
    cases h : fwd sl cur lvl with
    | none => exact List.Chain.nil
    | some n =>
      simp only [List.map_cons]
      exact List.Chain.cons h (ih (some n))

/-- The header's level-0 link goes to the first base-chain node. -/
theorem fwd0_head (sl : SkipList) (h0 : 0 < (chain0 sl).length) :
    fwd sl none 0 = some ((chain0 sl).getD 0 0) := by
  have hc : List.Chain (fun a b => fwd sl a 0 = b) none
      ((chain0 sl).map some) :=
    chainFrom_chain sl 0 (sl.nodes.length + 1) none
  rw [List.chain_iff_get] at hc
  have h0' : 0 < ((chain0 sl).map some).length := by
    simpa using h0
  have h1 := hc.1 h0'
  rw [List.get_eq_getElem, List.getElem_map] at h1
  rw [h1, List.getD_eq_getElem _ _ h0]

/-- Each base-chain node's level-0 link goes to the next chain node. -/
theorem fwd0_next (sl : SkipList) (j : Nat)
    (hj : j + 1 < (chain0 sl).length) :
    fwd sl (some ((chain0 sl).getD j 0)) 0 =
      some ((chain0 sl).getD (j + 1) 0) := by
  have hc : List.Chain (fun a b => fwd sl a 0 = b) none
      ((chain0 sl).map some) :=
    chainFrom_chain sl 0 (sl.nodes.length + 1) none
  rw [List.chain_iff_get] at hc
  have hj2 : j < ((chain0 sl).map some).length - 1 := by
    simp only [List.length_map]
    omega
  have h1 := hc.2 j hj2
  simp only [List.get_eq_getElem, List.getElem_map] at h1
  rw [List.getD_eq_getElem _ _ (by omega : j < (chain0 sl).length),
    List.getD_eq_getElem _ _ hj, h1]

/-- Keys are monotone along the base chain. -/
theorem chain0_keys_le (sl : SkipList) (hwf : WF sl) (i j : Nat)
    (hij : i ≤ j) (hj : j < (chain0 sl).length) :
    keyLe (nodeKey sl ((chain0 sl).getD i 0))
      (nodeKey sl ((chain0 sl).getD j 0)) := by
  rcases Nat.eq_or_lt_of_le hij with h | h
  · subst h
    exact keyLe_refl _
  · haveI : IsTrans Nat (fun a b => keyLe (nodeKey sl a) (nodeKey sl b)) :=
      ⟨fun _ _ _ h1 h2 => keyLe_trans h1 h2⟩
    have hp := (List.chain'_iff_pairwise).mp hwf.2.2.2.1
    rw [List.pairwise_iff_getElem] at hp
    have hi : i < (chain0 sl).length := lt_of_lt_of_le h (le_of_lt hj)
    have h2 := hp i j hi hj h
    rw [List.getD_eq_getElem _ _ hi, List.getD_eq_getElem _ _ hj]
    exact h2

/-! ### Traversal invariants -/

/-- A cursor is either the header or a node on the base chain. -/
def validCur (sl : SkipList) : Option Nat → Prop
  | none => True
  | some n => n ∈ chain0 sl

/-- The cursor's key is strictly below the search key (vacuously true
at the header). -/
def curLt (sl : SkipList) (key : Bytes) : Option Nat → Prop
  | none => True
  | some n => bcmp (nodeKey sl n) key = .lt

/-- Valid cursors have positions within the base chain. -/
theorem posIdx_le (sl : SkipList) (cur : Option Nat)
    (hv : validCur sl cur) : posIdx sl cur ≤ (chain0 sl).length := by
  cases cur with
  | none => simp [posIdx]
  | some n =>
    simp only [posIdx]
    have h1 : (chain0 sl).indexOf n < (chain0 sl).length :=
      List.indexOf_lt_length.mpr hv
    omega

/-- Every link out of a valid cursor at an in-range level obeys the
link discipline. -/
theorem linkOk_of_wf (sl : SkipList) (hwf : WF sl) (cur : Option Nat)
    (lvl : Nat) (hv : validCur sl cur) (hl : lvl < sl.maxLevel) :
    linkOk sl cur lvl = true := by
  cases cur with
  | none => exact hwf.2.2.2.2.2.2.2.1 lvl (List.mem_range.mpr hl)
  | some n =>
    exact hwf.2.2.2.2.2.2.2.2 n hv lvl (List.mem_range.mpr hl)

/-- Unpacking `linkOk` at a non-nil link. -/
theorem fwd_target (sl : SkipList) (cur : Option Nat) (lvl : Nat)
    (t : Nat) (hlk : linkOk sl cur lvl = true)
    (hf : fwd sl cur lvl = some t) :
    t ∈ chain0 sl ∧ posIdx sl cur < posIdx sl (some t) := by
  unfold linkOk at hlk
  rw [hf] at hlk
  simpa using hlk

/-- One-step unfolding of `advance`. -/
theorem advance_succ (sl : SkipList) (k : Bytes) (lvl fuel : Nat)
    (cur : Option Nat) :
    advance sl k lvl (fuel + 1) cur =
      match fwd sl cur lvl with
      | none => cur
      | some nxt =>
        if bcmp (nodeKey sl nxt) k = .lt then
          advance sl k lvl fuel (some nxt)
        else cur := rfl

/-- The advancing loop preserves validity and strictness, and with
enough fuel it stops only where the next node (if any) is not below
the search key. -/
theorem advance_spec (sl : SkipList) (k : Bytes) (lvl : Nat)
    (hwf : WF sl) (hl : lvl < sl.maxLevel) :
    ∀ (fuel : Nat) (cur : Option Nat), validCur sl cur →
      curLt sl k cur →
      sl.nodes.length + 1 ≤ posIdx sl cur + fuel →
      validCur sl (advance sl k lvl fuel cur) ∧
      curLt sl k (advance sl k lvl fuel cur) ∧
      ∀ t, fwd sl (advance sl k lvl fuel cur) lvl = some t →
        bcmp (nodeKey sl t) k ≠ .lt := by
  intro fuel
  induction fuel with
  | zero =>
    intro cur hv _ hfu
    exfalso
    have h1 := posIdx_le sl cur hv
    have h2 : (chain0 sl).length = sl.nodes.length := hwf.1
    omega
  | succ fuel ih =>
    intro cur hv hlt hfu
    rw [advance_succ]
    cases h : fwd sl cur lvl with
    | none =>
      refine ⟨hv, hlt, fun t ht => ?_⟩
      rw [h] at ht
      exact absurd ht (by simp)
    | some nxt =>
      simp only []
      have hlk := linkOk_of_wf sl hwf cur lvl hv hl
      have htg := fwd_target sl cur lvl nxt hlk h
      by_cases hb : bcmp (nodeKey sl nxt) k = .lt
      · rw [if_pos hb]
        refine ih (some nxt) htg.1 hb ?_
        have hpos := htg.2
        omega
      · rw [if_neg hb]
        refine ⟨hv, hlt, fun t ht => ?_⟩
        rw [h] at ht
        injection ht with he
        subst he
        exact hb

/-- Landing lemma: once the level-0 advance has stopped, the next
link is exactly the (unique) node holding the search key. -/
theorem advance_land (sl : SkipList) (k : Bytes) (p : Nat)
    (hwf : WF sl) (hp : p ∈ chain0 sl) (hkp : nodeKey sl p = k)
    (huq : ∀ q ∈ chain0 sl, nodeKey sl q = k → q = p)
    (cur : Option Nat) (hv : validCur sl cur) (hlt : curLt sl k cur)
    (hst : ∀ t, fwd sl cur 0 = some t → bcmp (nodeKey sl t) k ≠ .lt) :
    fwd sl cur 0 = some p := by
  have hip : (chain0 sl).indexOf p < (chain0 sl).length :=
    List.indexOf_lt_length.mpr hp
  have hcip : (chain0 sl).getD ((chain0 sl).indexOf p) 0 = p := by
    rw [List.getD_eq_getElem _ _ hip]
    exact List.getElem_indexOf hip
  cases cur with
  | none =>
    have h0 : 0 < (chain0 sl).length := by omega
    have hf := fwd0_head sl h0
    have hmem : (chain0 sl).getD 0 0 ∈ chain0 sl := by
      rw [List.getD_eq_getElem _ _ h0]
      exact List.getElem_mem h0
    have hnlt := hst _ hf
    have hle : keyLe (nodeKey sl ((chain0 sl).getD 0 0))
        (nodeKey sl ((chain0 sl).getD ((chain0 sl).indexOf p) 0)) :=
      chain0_keys_le sl hwf 0 _ (Nat.zero_le _) hip
    rw [hcip, hkp] at hle
    have heq : nodeKey sl ((chain0 sl).getD 0 0) = k := by
      rcases hc : bcmp (nodeKey sl ((chain0 sl).getD 0 0)) k with _ | _ | _
      · exact absurd hc hnlt
      · exact (bcmp_eq_iff _ _).mp hc
      · exact absurd hc hle
    rw [hf, huq _ hmem heq]
  | some n =>
    have hvn : n ∈ chain0 sl := hv
    have hjn : (chain0 sl).indexOf n < (chain0 sl).length :=
      List.indexOf_lt_length.mpr hvn
    have hcn : (chain0 sl).getD ((chain0 sl).indexOf n) 0 = n := by
      rw [List.getD_eq_getElem _ _ hjn]
      exact List.getElem_indexOf hjn
    have hltn : bcmp (nodeKey sl n) k = .lt := hlt
    have hjlt : (chain0 sl).indexOf n < (chain0 sl).indexOf p := by
      by_contra hcon
      have hle : keyLe (nodeKey sl ((chain0 sl).getD ((chain0 sl).indexOf p) 0))
          (nodeKey sl ((chain0 sl).getD ((chain0 sl).indexOf n) 0)) :=
        chain0_keys_le sl hwf _ _ (by omega) hjn
      rw [hcip, hcn, hkp] at hle
      have hgt : bcmp k (nodeKey sl n) = .gt :=
        (bcmp_gt_iff_lt _ _).mpr hltn
      exact hle hgt
    have hj1 : (chain0 sl).indexOf n + 1 < (chain0 sl).length := by omega
    have hf := fwd0_next sl ((chain0 sl).indexOf n) hj1
    rw [hcn] at hf
    have hmem : (chain0 sl).getD ((chain0 sl).indexOf n + 1) 0 ∈ chain0 sl := by
      rw [List.getD_eq_getElem _ _ hj1]
      exact List.getElem_mem hj1
    have hnlt := hst _ hf
    have hle : keyLe (nodeKey sl ((chain0 sl).getD ((chain0 sl).indexOf n + 1) 0))
        (nodeKey sl ((chain0 sl).getD ((chain0 sl).indexOf p) 0)) :=
      chain0_keys_le sl hwf _ _ (by omega) hip
    rw [hcip, hkp] at hle
    have heq : nodeKey sl ((chain0 sl).getD ((chain0 sl).indexOf n + 1) 0) = k := by
      rcases hc : bcmp (nodeKey sl ((chain0 sl).getD ((chain0 sl).indexOf n + 1) 0)) k
        with _ | _ | _
      · exact absurd hc hnlt
      · exact (bcmp_eq_iff _ _).mp hc
      · exact absurd hc hle
    rw [hf, huq _ hmem heq]

/-! ### `Get` -/

/-- `getFrom` on an exact match at the stopped cursor. -/
theorem getFrom_eq_found (sl : SkipList) (k : Bytes) (i : Nat)
    (cur : Option Nat) (n : Nat)
    (hf : fwd sl (advance sl k i (sl.nodes.length + 1) cur) i = some n)
    (hb : bcmp (nodeKey sl n) k = .eq) :
    getFrom sl k i cur = some (sl.nodes.getD n default).entry.value := by
  cases i with
  | zero =>
    rw [getFrom, hf]
    simp [hb]
  | succ i' =>
    rw [getFrom, hf]
    simp [hb]

/-- `getFrom` drops a level below a nil link. -/
theorem getFrom_descend_none (sl : SkipList) (k : Bytes) (i' : Nat)
    (cur : Option Nat)
    (hf : fwd sl (advance sl k (i' + 1) (sl.nodes.length + 1) cur)
      (i' + 1) = none) :
    getFrom sl k (i' + 1) cur =
      getFrom sl k i' (advance sl k (i' + 1) (sl.nodes.length + 1) cur) := by
  rw [getFrom, hf]

/-- `getFrom` drops a level below a link whose key is not the search
key. -/
theorem getFrom_descend_ne (sl : SkipList) (k : Bytes) (i' : Nat)
    (cur : Option Nat) (n : Nat)
    (hf : fwd sl (advance sl k (i' + 1) (sl.nodes.length + 1) cur)
      (i' + 1) = some n)
    (hb : ¬ bcmp (nodeKey sl n) k = .eq) :
    getFrom sl k (i' + 1) cur =
      getFrom sl k i' (advance sl k (i' + 1) (sl.nodes.length + 1) cur) := by
  rw [getFrom, hf]
  simp [hb]

/-- The per-level `Get` body always finds the unique node holding the
search key. -/
theorem getFrom_finds (sl : SkipList) (k : Bytes) (p : Nat)
    (hwf : WF sl) (hp : p ∈ chain0 sl) (hkp : nodeKey sl p = k)
    (huq : ∀ q ∈ chain0 sl, nodeKey sl q = k → q = p) :
    ∀ (i : Nat), i < sl.maxLevel → ∀ (cur : Option Nat),
      validCur sl cur → curLt sl k cur →
      getFrom sl k i cur = some (sl.nodes.getD p default).entry.value := by
  intro i
  induction i with
  | zero =>
    intro hi cur hv hlt
    obtain ⟨hv2, hlt2, hst⟩ :=
      advance_spec sl k 0 hwf hi (sl.nodes.length + 1) cur hv hlt (by omega)
    have hland := advance_land sl k p hwf hp hkp huq _ hv2 hlt2 hst
    exact getFrom_eq_found sl k 0 cur p hland (by rw [hkp]; exact bcmp_refl k)
  | succ i' ih =>
    intro hi cur hv hlt
    obtain ⟨hv2, hlt2, hst⟩ :=
      advance_spec sl k (i' + 1) hwf hi (sl.nodes.length + 1) cur hv hlt
        (by omega)
    have hi' : i' < sl.maxLevel := Nat.lt_of_succ_lt hi
    cases hf : fwd sl (advance sl k (i' + 1) (sl.nodes.length + 1) cur)
        (i' + 1) with
    | none =>
      rw [getFrom_descend_none sl k i' cur hf]
      exact ih hi' _ hv2 hlt2
    | some n =>
      rcases hc : bcmp (nodeKey sl n) k with _ | _ | _
      · exact absurd hc (hst n hf)
      · have hlk := linkOk_of_wf sl hwf _ (i' + 1) hv2 hi
        have hmem := (fwd_target sl _ (i' + 1) n hlk hf).1
        have hnp : n = p := huq n hmem ((bcmp_eq_iff _ _).mp hc)
        subst hnp
        exact getFrom_eq_found sl k (i' + 1) cur n hf hc
      · rw [getFrom_descend_ne sl k i' cur n hf (by rw [hc]; simp)]
        exact ih hi' _ hv2 hlt2

/-- `Get` returns the value stored at the unique node holding the
key. -/
theorem get_finds (sl : SkipList) (k : Bytes) (p : Nat)
    (hwf : WF sl) (hp : p ∈ chain0 sl) (hkp : nodeKey sl p = k)
    (huq : ∀ q ∈ chain0 sl, nodeKey sl q = k → q = p) :
    sl.get k = some (sl.nodes.getD p default).entry.value :=
  getFrom_finds sl k p hwf hp hkp huq sl.currentLevel
    hwf.2.2.2.2.2.2.1 none trivial trivial

/-! ### `setValue` congruence -/

theorem setValue_nodes_length (sl : SkipList) (n : Nat) (v : Bytes) :
    (setValue sl n v).nodes.length = sl.nodes.length := by
  simp [setValue]

theorem setValue_oob (sl : SkipList) (n : Nat) (v : Bytes)
    (h : sl.nodes.length ≤ n) : setValue sl n v = sl := by
  cases sl with
  | mk head nodes maxLevel currentLevel length =>
    simp only [setValue]
    rw [List.set_eq_of_length_le (by simpa using h)]

theorem setValue_getD_self (sl : SkipList) (n : Nat) (v : Bytes)
    (h : n < sl.nodes.length) :
    (setValue sl n v).nodes.getD n default =
      { sl.nodes.getD n default with
        entry := { (sl.nodes.getD n default).entry with value := v } } := by
  unfold setValue
  simp only []
  rw [List.getD_eq_getElem _ _ (by simpa using h)]
  rw [List.getElem_set_self]

theorem setValue_getD_other (sl : SkipList) (n : Nat) (v : Bytes)
    (m : Nat) (hm : m ≠ n) :
    (setValue sl n v).nodes.getD m default = sl.nodes.getD m default := by
  unfold setValue
  simp only []
  rw [List.getD_eq_getElem?_getD, List.getD_eq_getElem?_getD,
    List.getElem?_set]
  rw [if_neg (Ne.symm hm), List.getD_eq_getElem?_getD]

theorem setValue_forward (sl : SkipList) (n : Nat) (v : Bytes) (m : Nat) :
    ((setValue sl n v).nodes.getD m default).forward =
      (sl.nodes.getD m default).forward := by
  by_cases hm : m = n
  · subst hm
    by_cases hlt : m < sl.nodes.length
    · rw [setValue_getD_self sl m v hlt]
    · rw [setValue_oob sl m v (le_of_not_lt hlt)]
  · rw [setValue_getD_other sl n v m hm]

theorem setValue_key (sl : SkipList) (n : Nat) (v : Bytes) (m : Nat) :
    ((setValue sl n v).nodes.getD m default).entry.key =
      (sl.nodes.getD m default).entry.key := by
  by_cases hm : m = n
  · subst hm
    by_cases hlt : m < sl.nodes.length
    · rw [setValue_getD_self sl m v hlt]
    · rw [setValue_oob sl m v (le_of_not_lt hlt)]
  · rw [setValue_getD_other sl n v m hm]

theorem fwd_setValue (sl : SkipList) (n : Nat) (v : Bytes)
    (cur : Option Nat) (lvl : Nat) :
    fwd (setValue sl n v) cur lvl = fwd sl cur lvl := by
  cases cur with
  | none => rfl
  | some m =>
    unfold fwd getNode
    rw [setValue_forward]

theorem nodeKey_setValue (sl : SkipList) (n : Nat) (v : Bytes) (m : Nat) :
    nodeKey (setValue sl n v) m = nodeKey sl m := by
  unfold nodeKey
  rw [setValue_key]

theorem advance_setValue (sl : SkipList) (n : Nat) (v : Bytes)
    (k : Bytes) (lvl : Nat) :
    ∀ (fuel : Nat) (cur : Option Nat),
      advance (setValue sl n v) k lvl fuel cur =
        advance sl k lvl fuel cur := by
  intro fuel
  induction fuel with
  | zero => intro cur; rfl
  | succ fuel ih =>
    intro cur
    rw [advance_succ, advance_succ, fwd_setValue]
    cases h : fwd sl cur lvl with
    | none => rfl
    | some nxt =>
      simp only [nodeKey_setValue]
      by_cases hb : bcmp (nodeKey sl nxt) k = .lt
      · rw [if_pos hb, if_pos hb, ih]
      · rw [if_neg hb, if_neg hb]

theorem chainFrom_setValue (sl : SkipList) (n : Nat) (v : Bytes)
    (lvl : Nat) :
    ∀ (fuel : Nat) (cur : Option Nat),
      chainFrom (setValue sl n v) lvl fuel cur =
        chainFrom sl lvl fuel cur := by
  intro fuel
  induction fuel with
  | zero => intro cur; rfl
  | succ fuel ih =>
    intro cur
    rw [chainFrom_succ, chainFrom_succ, fwd_setValue]
    cases h : fwd sl cur lvl with
    | none => rfl
    | some m =>
      simp only []
      rw [ih]

theorem chain0_setValue (sl : SkipList) (n : Nat) (v : Bytes) :
    chain0 (setValue sl n v) = chain0 sl := by
  unfold chain0
  rw [setValue_nodes_length, chainFrom_setValue]

theorem posIdx_setValue (sl : SkipList) (n : Nat) (v : Bytes)
    (cur : Option Nat) :
    posIdx (setValue sl n v) cur = posIdx sl cur := by
  cases cur with
  | none => rfl
  | some m => simp [posIdx, chain0_setValue]

theorem linkOk_setValue (sl : SkipList) (n : Nat) (v : Bytes)
    (cur : Option Nat) (lvl : Nat) :
    linkOk (setValue sl n v) cur lvl = linkOk sl cur lvl := by
  unfold linkOk
  rw [fwd_setValue]
  cases h : fwd sl cur lvl with
  | none => rfl
  | some t =>
    simp only [chain0_setValue, posIdx_setValue]

/-- `setValue` at an in-range index preserves well-formedness. -/
theorem WF_setValue (sl : SkipList) (n : Nat) (v : Bytes)
    (hn : n < sl.nodes.length) (hwf : WF sl) :
    WF (setValue sl n v) := by
  obtain ⟨h1, h2, h3, h4, h5, h6, h7, h8, h9⟩ := hwf
  refine ⟨?_, ?_, ?_, ?_, ?_, ?_, ?_, ?_, ?_⟩
  · rw [chain0_setValue, setValue_nodes_length]
    exact h1
  · rw [chain0_setValue]
    exact h2
  · rw [chain0_setValue, setValue_nodes_length]
    exact h3
  · rw [chain0_setValue]
    simp only [nodeKey_setValue]
    exact h4
  · exact h5
  · intro nd hnd
    have hmem := List.mem_or_eq_of_mem_set hnd
    rcases hmem with hmem | hmem
    · exact h6 nd hmem
    · subst hmem
      simp only []
      have : sl.nodes.getD n default ∈ sl.nodes := by
        rw [List.getD_eq_getElem _ _ hn]
        exact List.getElem_mem hn
      exact h6 _ this
  · exact h7
  · intro lvl hl
    rw [linkOk_setValue]
    exact h8 lvl hl
  · intro m hm lvl hl
    rw [chain0_setValue] at hm
    rw [linkOk_setValue]
    exact h9 m hm lvl hl

theorem setValue_value_self (sl : SkipList) (n : Nat) (v : Bytes)
    (h : n < sl.nodes.length) :
    ((setValue sl n v).nodes.getD n default).entry.value = v := by
  rw [setValue_getD_self sl n v h]

theorem setValue_value_other (sl : SkipList) (n : Nat) (v : Bytes)
    (m : Nat) (hm : m ≠ n) :
    ((setValue sl n v).nodes.getD m default).entry.value =
      (sl.nodes.getD m default).entry.value := by
  rw [setValue_getD_other sl n v m hm]

/-- Re-setting the same node's value collapses to the last write. -/
theorem setValue_setValue (sl : SkipList) (n : Nat) (v v' : Bytes) :
    setValue (setValue sl n v) n v' = setValue sl n v' := by
  cases sl with
  | mk head nodes maxLevel currentLevel length =>
    simp only [setValue, SkipList.mk.injEq, true_and, and_true]
    rw [List.set_set]
    by_cases h : n < nodes.length
    · congr 1
      rw [List.getD_eq_getElem _ _ (by simpa using h),
        List.getElem_set_self, List.getD_eq_getElem _ _ h]
    · simp only [List.set_eq_of_length_le (le_of_not_lt h)]

/-! ### `Update` -/

/-- `updateFrom` at level 0 on an exact match. -/
theorem updateFrom_found0 (k v : Bytes) (sl : SkipList)
    (cur : Option Nat) (n : Nat) (b : Bool)
    (hf : fwd sl (advance sl k 0 (sl.nodes.length + 1) cur) 0 = some n)
    (hb : bcmp (nodeKey sl n) k = .eq) :
    updateFrom k v 0 sl cur b = (setValue sl n v, true) := by
  rw [updateFrom, hf]
  simp [hb]

/-- `updateFrom` above level 0 on an exact match: write and descend. -/
theorem updateFrom_found_succ (k v : Bytes) (i' : Nat) (sl : SkipList)
    (cur : Option Nat) (n : Nat) (b : Bool)
    (hf : fwd sl (advance sl k (i' + 1) (sl.nodes.length + 1) cur)
      (i' + 1) = some n)
    (hb : bcmp (nodeKey sl n) k = .eq) :
    updateFrom k v (i' + 1) sl cur b =
      updateFrom k v i' (setValue sl n v)
        (advance sl k (i' + 1) (sl.nodes.length + 1) cur) true := by
  rw [updateFrom, hf]
  simp [hb]

/-- `updateFrom` above level 0 below a nil link: descend unchanged. -/
theorem updateFrom_skip_none (k v : Bytes) (i' : Nat) (sl : SkipList)
    (cur : Option Nat) (b : Bool)
    (hf : fwd sl (advance sl k (i' + 1) (sl.nodes.length + 1) cur)
      (i' + 1) = none) :
    updateFrom k v (i' + 1) sl cur b =
      updateFrom k v i' sl
        (advance sl k (i' + 1) (sl.nodes.length + 1) cur) b := by
  rw [updateFrom, hf]

/-- `updateFrom` above level 0 below a non-matching link: descend
unchanged. -/
theorem updateFrom_skip_ne (k v : Bytes) (i' : Nat) (sl : SkipList)
    (cur : Option Nat) (n : Nat) (b : Bool)
    (hf : fwd sl (advance sl k (i' + 1) (sl.nodes.length + 1) cur)
      (i' + 1) = some n)
    (hb : ¬ bcmp (nodeKey sl n) k = .eq) :
    updateFrom k v (i' + 1) sl cur b =
      updateFrom k v i' sl
        (advance sl k (i' + 1) (sl.nodes.length + 1) cur) b := by
  rw [updateFrom, hf]
  simp [hb]

/-- Navigation congruence for the two states threaded through
`updateFrom` (pristine, or with node `p`'s value already rewritten). -/
theorem nav_adv (sl : SkipList) (p : Nat) (v k : Bytes) (lvl : Nat)
    (cur : Option Nat) (s : SkipList)
    (hs : s = sl ∨ s = setValue sl p v) :
    advance s k lvl (s.nodes.length + 1) cur =
      advance sl k lvl (sl.nodes.length + 1) cur := by
  rcases hs with rfl | rfl
  · rfl
  · rw [setValue_nodes_length, advance_setValue]

theorem nav_fwd (sl : SkipList) (p : Nat) (v : Bytes)
    (cur : Option Nat) (lvl : Nat) (s : SkipList)
    (hs : s = sl ∨ s = setValue sl p v) :
    fwd s cur lvl = fwd sl cur lvl := by
  rcases hs with rfl | rfl
  · rfl
  · rw [fwd_setValue]

theorem nav_key (sl : SkipList) (p : Nat) (v : Bytes) (m : Nat)
    (s : SkipList) (hs : s = sl ∨ s = setValue sl p v) :
    nodeKey s m = nodeKey sl m := by
  rcases hs with rfl | rfl
  · rfl
  · rw [nodeKey_setValue]

/-- The `Update` descent always finds the unique node holding the key
and leaves exactly that node's value rewritten, reporting success. -/
theorem updateFrom_finds (sl : SkipList) (k v : Bytes) (p : Nat)
    (hwf : WF sl) (hp : p ∈ chain0 sl) (hkp : nodeKey sl p = k)
    (huq : ∀ q ∈ chain0 sl, nodeKey sl q = k → q = p) :
    ∀ (i : Nat), i < sl.maxLevel →
      ∀ (cur : Option Nat) (b : Bool) (s : SkipList),
        s = sl ∨ s = setValue sl p v →
        validCur sl cur → curLt sl k cur →
        updateFrom k v i s cur b = (setValue sl p v, true) := by
  intro i
  induction i with
  | zero =>
    intro hi cur b s hs hv hlt
    obtain ⟨hv2, hlt2, hst⟩ :=
      advance_spec sl k 0 hwf hi (sl.nodes.length + 1) cur hv hlt
        (by omega)
    have hland := advance_land sl k p hwf hp hkp huq _ hv2 hlt2 hst
    have hf : fwd s (advance s k 0 (s.nodes.length + 1) cur) 0 = some p := by
      rw [nav_adv sl p v k 0 cur s hs, nav_fwd sl p v _ 0 s hs]
      exact hland
    have hkey : bcmp (nodeKey s p) k = .eq := by
      rw [nav_key sl p v p s hs, hkp]
      exact bcmp_refl k
    rw [updateFrom_found0 k v s cur p b hf hkey]
    rcases hs with rfl | rfl
    · rfl
    · rw [setValue_setValue]
  | succ i' ih =>
    intro hi cur b s hs hv hlt
    have hi' : i' < sl.maxLevel := Nat.lt_of_succ_lt hi
    obtain ⟨hv2, hlt2, hst⟩ :=
      advance_spec sl k (i' + 1) hwf hi (sl.nodes.length + 1) cur hv hlt
        (by omega)
    cases hf : fwd sl (advance sl k (i' + 1) (sl.nodes.length + 1) cur)
        (i' + 1) with
    | none =>
      have hfs : fwd s (advance s k (i' + 1) (s.nodes.length + 1) cur)
          (i' + 1) = none := by
        rw [nav_adv sl p v k (i' + 1) cur s hs,
          nav_fwd sl p v _ (i' + 1) s hs]
        exact hf
      rw [updateFrom_skip_none k v i' s cur b hfs,
        nav_adv sl p v k (i' + 1) cur s hs]
      exact ih hi' _ b s hs hv2 hlt2
    | some n =>
      rcases hc : bcmp (nodeKey sl n) k with _ | _ | _
      · exact absurd hc (hst n hf)
      · have hlk := linkOk_of_wf sl hwf _ (i' + 1) hv2 hi
        have hmem := (fwd_target sl _ (i' + 1) n hlk hf).1
        have hnp : n = p := huq n hmem ((bcmp_eq_iff _ _).mp hc)
        subst hnp
        have hfs : fwd s (advance s k (i' + 1) (s.nodes.length + 1) cur)
            (i' + 1) = some n := by
          rw [nav_adv sl n v k (i' + 1) cur s hs,
            nav_fwd sl n v _ (i' + 1) s hs]
          exact hf
        have hkey : bcmp (nodeKey s n) k = .eq := by
          rw [nav_key sl n v n s hs]
          exact hc
        rw [updateFrom_found_succ k v i' s cur n b hfs hkey,
          nav_adv sl n v k (i' + 1) cur s hs]
        have hset : setValue s n v = setValue sl n v := by
          rcases hs with rfl | rfl
          · rfl
          · rw [setValue_setValue]
        rw [hset]
        exact ih hi' _ true (setValue sl n v) (Or.inr rfl) hv2 hlt2
      · have hfs : fwd s (advance s k (i' + 1) (s.nodes.length + 1) cur)
            (i' + 1) = some n := by
          rw [nav_adv sl p v k (i' + 1) cur s hs,
            nav_fwd sl p v _ (i' + 1) s hs]
          exact hf
        have hbne : ¬ bcmp (nodeKey s n) k = .eq := by
          rw [nav_key sl p v n s hs, hc]
          simp
        rw [updateFrom_skip_ne k v i' s cur n b hfs hbne,
          nav_adv sl p v k (i' + 1) cur s hs]
        exact ih hi' _ b s hs hv2 hlt2

/-- `Update` on a state holding the key at a unique node: rewrite that
node's value in place and report success. -/
theorem update_eq (sl : SkipList) (k v : Bytes) (p : Nat)
    (hwf : WF sl) (hp : p ∈ chain0 sl) (hkp : nodeKey sl p = k)
    (huq : ∀ q ∈ chain0 sl, nodeKey sl q = k → q = p) :
    sl.update k v = (setValue sl p v, true) := by
  unfold SkipList.update
  exact updateFrom_finds sl k v p hwf hp hkp huq sl.currentLevel
    hwf.2.2.2.2.2.2.1 none false sl (Or.inl rfl) trivial trivial

/-- A finite sequence of `Update` calls for one key, accumulating the
conjunction of all the returned `found` flags. -/
def updSeq (k : Bytes) (vs : List Bytes) (sl : SkipList) :
    SkipList × Bool :=
  vs.foldl
    (fun acc v => ((acc.1.update k v).1, acc.2 && (acc.1.update k v).2))
    (sl, true)

/-- A sequence of updates to the unique node holding `k` collapses to
one in-place value write of the last value, with every call
succeeding. -/
theorem updSeq_spec (k : Bytes) (p : Nat) :
    ∀ (vs : List Bytes) (v : Bytes) (sl : SkipList),
      WF sl → p ∈ chain0 sl → nodeKey sl p = k →
      (∀ q ∈ chain0 sl, nodeKey sl q = k → q = p) →
      updSeq k (vs ++ [v]) sl = (setValue sl p v, true) := by
  intro vs
  induction vs with
  | nil =>
    intro v sl hwf hp hkp huq
    unfold updSeq
    simp only [List.nil_append, List.foldl_cons, List.foldl_nil]
    rw [update_eq sl k v p hwf hp hkp huq]
    rfl
  | cons v0 vs ih =>
    intro v sl hwf hp hkp huq
    have hplt : p < sl.nodes.length := hwf.2.2.1 p hp
    have hwf' := WF_setValue sl p v0 hplt hwf
    have h2 := ih v (setValue sl p v0) hwf'
      (by rw [chain0_setValue]; exact hp)
      (by rw [nodeKey_setValue]; exact hkp)
      (by
        intro q hq hkq
        rw [chain0_setValue] at hq
        rw [nodeKey_setValue] at hkq
        exact huq q hq hkq)
    unfold updSeq
    simp only [List.cons_append, List.foldl_cons]
    rw [update_eq sl k v0 p hwf hp hkp huq]
    unfold updSeq at h2
    rw [setValue_setValue] at h2
    exact h2

/-- C8: on a well-formed skip list holding the key at exactly one
node, any non-empty sequence of `Update(key, v1) … Update(key, vn)`
has every call return `true`, after which `Get(key)` returns the most
recently updated value `vn`, while `Get` on any other key held by a
unique node still returns that node's own (unchanged) value. -/
theorem C8_skiplist_update_get (sl : SkipList) (k : Bytes) (p : Nat)
    (vs : List Bytes) (v : Bytes)
    (hwf : WF sl) (hp : p ∈ chain0 sl) (hkp : nodeKey sl p = k)
    (huq : ∀ q ∈ chain0 sl, nodeKey sl q = k → q = p) :
    (updSeq k (vs ++ [v]) sl).2 = true ∧
    (updSeq k (vs ++ [v]) sl).1.get k = some v ∧
    ∀ (k2 : Bytes) (q : Nat), q ∈ chain0 sl → nodeKey sl q = k2 →
      (∀ r ∈ chain0 sl, nodeKey sl r = k2 → r = q) → k2 ≠ k →
      (updSeq k (vs ++ [v]) sl).1.get k2 =
        some (sl.nodes.getD q default).entry.value := by
  have hplt : p < sl.nodes.length := hwf.2.2.1 p hp
  have hs := updSeq_spec k p vs v sl hwf hp hkp huq
  rw [hs]
  have hwf' := WF_setValue sl p v hplt hwf
  refine ⟨rfl, ?_, ?_⟩
  · have hget := get_finds (setValue sl p v) k p hwf'
      (by rw [chain0_setValue]; exact hp)
      (by rw [nodeKey_setValue]; exact hkp)
      (by
        intro q hq hkq
        rw [chain0_setValue] at hq
        rw [nodeKey_setValue] at hkq
        exact huq q hq hkq)
    rw [hget, setValue_value_self sl p v hplt]
  · intro k2 q hq hkq huq2 hne
    have hqp : q ≠ p := by
      intro h
      subst h
      exact hne (by rw [← hkq, hkp])
    have hget := get_finds (setValue sl p v) k2 q hwf'
      (by rw [chain0_setValue]; exact hq)
      (by rw [nodeKey_setValue]; exact hkq)
      (by
        intro r hr hkr
        rw [chain0_setValue] at hr
        rw [nodeKey_setValue] at hkr
        exact huq2 r hr hkr)
    rw [hget, setValue_value_other sl p v q hqp]

/-- A concrete three-key skip list built by `Insert` (keys 97, 98, 99
with values 50, 60, 70 and coin-flip levels 1, 0, 2). -/
def slT : SkipList :=
  ((NewSkipList 4).insert [98] [60] 1 |>.insert [97] [50] 0
    |>.insert [99] [70] 2)

theorem C8_witness :
    (updSeq [98] [[1]] slT).2 = true ∧
    (updSeq [98] [[1]] slT).1.get [98] = some [1] ∧
    (updSeq [98] [[1]] slT).1.get [99] = some [70] := by
  have h := C8_skiplist_update_get slT [98] 0 [] [1]
    (by decide) (by decide) (by decide) (by decide)
  refine ⟨h.1, h.2.1, ?_⟩
  have h3 := h.2.2 [99] 2 (by decide) (by decide) (by decide) (by decide)
  exact h3
